import Mathlib

/-!
Shallow embedding of the entity resolution engine of `src/parsers/entity_matcher.py`
(normalizers, difflib-based similarity scoring, threshold matchers, cross-referencing),
together with proofs settling the specification claims.

Modelling conventions:
* Python strings are Lean `String`s processed as `List Char`; `str.lower`, `\w`, `\d`,
  `[A-Z]` are modelled on their ASCII behaviour (`Char.toLower`, `Char.isAlphanum`,
  `Char.isDigit`, `Char.isAlpha`).
* Python floats are modelled as exact rationals `ℚ`; `round(x, 3)` is modelled as
  exact round-half-to-even at three decimals.
* Python `set` iteration order (used when building candidate pools) is modelled as
  first-occurrence insertion order; only cardinalities and memberships of these pools
  are relevant to the claims.
* `difflib.SequenceMatcher` (stdlib code the source delegates to) is embedded
  faithfully: the `b2j` index with autojunk pruning, the `find_longest_match`
  dynamic-programming loop with its four junk/non-junk extension loops (the junk set
  is empty since the source passes `isjunk=None`), and the recursive decomposition of
  `get_matching_blocks` summed into the total match count used by `ratio`.
  Recursions that are not structural in Python are given an explicit fuel argument
  that provably dominates the recursion depth, keeping every definition executable
  by kernel reduction.
-/

/-- Python whitespace (`\s`, `str.strip`, `str.split`) restricted to ASCII. -/
def pyWs (c : Char) : Bool :=
  c == ' ' || c == '\t' || c == '\n' || c == '\r' || c == '\x0b' || c == '\x0c'

/-- A word character in the sense of the regex `\w` (ASCII). -/
def isWordChar (c : Char) : Bool :=
  c.isAlphanum || c == '_'

/-- The punctuation class removed by the name normalizers: period, comma,
semicolon, colon, apostrophe, double quote, parentheses, hyphen. -/
def isNamePunct (c : Char) : Bool :=
  c == '.' || c == ',' || c == ';' || c == ':' || c == '\'' || c == '"' ||
  c == '(' || c == ')' || c == '-'

/-- Drop trailing whitespace (right half of `str.strip`). -/
def dropTrailingWs : List Char → List Char
  | [] => []
  | c :: cs => if (dropTrailingWs cs).isEmpty && pyWs c then [] else c :: dropTrailingWs cs

/-- `str.strip`: drop leading and trailing whitespace. -/
def pyStrip (l : List Char) : List Char :=
  dropTrailingWs (l.dropWhile pyWs)

/-- `str.lower` (ASCII model). -/
def pyLower (l : List Char) : List Char :=
  l.map Char.toLower

/-- The punctuation substitution of the normalizers: punctuation becomes a space. -/
def punctToSpace (l : List Char) : List Char :=
  l.map (fun c => if isNamePunct c then ' ' else c)

/-- `re.sub(r"\s+", " ", s)`: collapse each maximal whitespace run to one space. -/
def collapseWs : List Char → List Char
  | [] => []
  | c :: cs =>
    if pyWs c then
      (if (collapseWs cs).head? == some ' ' then collapseWs cs else ' ' :: collapseWs cs)
    else c :: collapseWs cs

/-- The suffix tokens of `COMPANY_SUFFIXES`, with the optional plural forms expanded;
on punctuation-free lowercase text each pattern `\btok\.?\b` removes exactly the
maximal word-character runs equal to `tok`. -/
def companySuffixTokens : List (List Char) :=
  ["inc", "ltd", "corp", "corporation", "co", "llc", "llp", "lp", "partnership",
   "holding", "holdings", "group", "properties", "investment", "investments",
   "realty", "trust", "associate", "associates", "enterprise", "enterprises",
   "development", "developments", "construction"].map String.data

/-- Right-to-left partition of a string into maximal word-character runs while
deleting the runs listed in `companySuffixTokens`. State: the word run currently
being accumulated, and the processed remainder to its right. -/
def rsrPair : List Char → List Char × List Char
  | [] => ([], [])
  | c :: cs =>
    if isWordChar c then (c :: (rsrPair cs).1, (rsrPair cs).2)
    else ([], c :: ((if (rsrPair cs).1 ∈ companySuffixTokens then [] else (rsrPair cs).1) ++
      (rsrPair cs).2))

/-- Sequential application of all the `re.sub(suffix, "", name)` passes: each pass
deletes every maximal word run equal to its token, passes cannot interfere (runs
never merge, all tokens are distinct words), so the net effect is a single sweep
deleting every word run that is a suffix token. -/
def removeSuffixRuns (l : List Char) : List Char :=
  (if (rsrPair l).1 ∈ companySuffixTokens then [] else (rsrPair l).1) ++ (rsrPair l).2

/-- `normalize_company_name` from the source: lowercase, strip, punctuation to
spaces, remove legal-suffix tokens, collapse whitespace, strip. -/
def normalize_company_name (name : String) : String :=
  if name = "" then "" else
  ⟨pyStrip (collapseWs (removeSuffixRuns (punctToSpace (pyStrip (pyLower name.data)))))⟩

/-- Maximal word-character runs of a string (used to reason about suffix removal):
the leading incomplete run and the completed runs to its right. -/
def wordRunsAux : List Char → List Char × List (List Char)
  | [] => ([], [])
  | c :: cs =>
    if isWordChar c then (c :: (wordRunsAux cs).1, (wordRunsAux cs).2)
    else ([], if (wordRunsAux cs).1.isEmpty then (wordRunsAux cs).2
      else (wordRunsAux cs).1 :: (wordRunsAux cs).2)

/-- The list of maximal word runs of `l`. -/
def wordRuns (l : List Char) : List (List Char) :=
  if (wordRunsAux l).1.isEmpty then (wordRunsAux l).2
  else (wordRunsAux l).1 :: (wordRunsAux l).2

/-- Strict lexicographic comparison of char lists by code point, the order Python
uses to sort strings. -/
def lexLt : List Char → List Char → Bool
  | [], [] => false
  | [], _ :: _ => true
  | _ :: _, [] => false
  | a :: as, b :: bs => if a < b then true else if b < a then false else lexLt as bs

/-- Stable ascending insertion for token sorting (`sorted` in Python). -/
def insertTok (x : List Char) : List (List Char) → List (List Char)
  | [] => [x]
  | y :: ys => if lexLt y x then y :: insertTok x ys else x :: y :: ys

/-- `sorted(tokens)`: stable ascending sort by code-point order. -/
def sortToks : List (List Char) → List (List Char)
  | [] => []
  | x :: xs => insertTok x (sortToks xs)

/-- State of `str.split()`: current run of non-whitespace and completed tokens. -/
def pySplitAux : List Char → List Char × List (List Char)
  | [] => ([], [])
  | c :: cs =>
    if pyWs c then ([], if (pySplitAux cs).1.isEmpty then (pySplitAux cs).2
      else (pySplitAux cs).1 :: (pySplitAux cs).2)
    else (c :: (pySplitAux cs).1, (pySplitAux cs).2)

/-- `str.split()` with no separator: maximal nonempty runs of non-whitespace. -/
def pySplit (l : List Char) : List (List Char) :=
  if (pySplitAux l).1.isEmpty then (pySplitAux l).2
  else (pySplitAux l).1 :: (pySplitAux l).2

/-- `" ".join(parts)`. -/
def joinSpace : List (List Char) → List Char
  | [] => []
  | [t] => t
  | t :: ts => t ++ ' ' :: joinSpace ts

/-- `normalize_person_name` from the source: lowercase, strip, punctuation to
spaces, collapse whitespace, strip, then sort the whitespace-separated tokens
and rejoin with single spaces. -/
def normalize_person_name (name : String) : String :=
  if name = "" then "" else
  ⟨joinSpace (sortToks (pySplit (pyStrip (collapseWs (punctToSpace (pyStrip (pyLower name.data)))))))⟩

/-- Length of the match of `#\d+|suite\s*\d+|unit\s*\d+` at the head of `l`,
alternatives tried in order, digits greedy (no boundary anchors in the source
pattern, so e.g. the tail of "lawsuite 7" matches). -/
def unitMarkerLen (l : List Char) : Option Nat :=
  if l.head? == some '#' then
    let ds := (l.drop 1).takeWhile Char.isDigit
    if ds.isEmpty then none else some (1 + ds.length)
  else if List.isPrefixOf "suite".data l then
    let r := l.drop 5
    let ws := r.takeWhile pyWs
    let ds := (r.drop ws.length).takeWhile Char.isDigit
    if ds.isEmpty then none else some (5 + ws.length + ds.length)
  else if List.isPrefixOf "unit".data l then
    let r := l.drop 4
    let ws := r.takeWhile pyWs
    let ds := (r.drop ws.length).takeWhile Char.isDigit
    if ds.isEmpty then none else some (4 + ws.length + ds.length)
  else none

/-- Length of the match of the postal-code pattern `[A-Z]\d[A-Z]\s*\d[A-Z]\d`
(IGNORECASE) at the head of `l`. -/
def postalLen (l : List Char) : Option Nat :=
  match l with
  | c1 :: c2 :: c3 :: rest =>
    if c1.isAlpha && c2.isDigit && c3.isAlpha then
      let ws := rest.takeWhile pyWs
      match rest.drop ws.length with
      | d1 :: d2 :: d3 :: _ =>
        if d1.isDigit && d2.isAlpha && d3.isDigit then some (3 + ws.length + 3) else none
      | _ => none
    else none
  | _ => none

/-- Length of the match of `,?\s*(?:saskatchewan|sk|canada)\b` at the head of `l`
(alternatives in order; no left word boundary, so "task" loses its "sk"). -/
def provinceLen (l : List Char) : Option Nat :=
  let cn := if l.head? == some ',' then 1 else 0
  let r := l.drop cn
  let ws := (r.takeWhile pyWs).length
  let r2 := r.drop ws
  let tryWord : List Char → Option Nat := fun w =>
    if List.isPrefixOf w r2 &&
       (match (r2.drop w.length).head? with
        | none => true
        | some c => !isWordChar c) then
      some (cn + ws + w.length)
    else none
  match tryWord "saskatchewan".data with
  | some n => some n
  | none =>
    match tryWord "sk".data with
    | some n => some n
    | none => tryWord "canada".data

/-- `re.sub(pat, "", s)` for a pattern recognised by `m`: scan left to right,
delete each leftmost match and resume after it. Fuel dominates the scan length;
every recognised match consumes at least one character. -/
def scanSub (m : List Char → Option Nat) : Nat → List Char → List Char
  | 0, l => l
  | _ + 1, [] => []
  | fuel + 1, c :: cs =>
    match m (c :: cs) with
    | some n => scanSub m fuel ((c :: cs).drop (max n 1))
    | none => c :: scanSub m fuel cs

/-- `re.sub(rf"\b{tok}\b", repl, s)`: replace each maximal word run equal to `tok`.
The boolean argument tracks whether the previous character of the original string
is a word character (regex matching always reads the original string). -/
def subWord (tok repl : List Char) : Nat → List Char → Bool → List Char
  | 0, l, _ => l
  | _ + 1, [], _ => []
  | fuel + 1, c :: cs, prevW =>
    if !prevW && List.isPrefixOf tok (c :: cs) &&
       (match ((c :: cs).drop tok.length).head? with
        | none => true
        | some d => !isWordChar d) then
      repl ++ subWord tok repl fuel ((c :: cs).drop (max tok.length 1))
        (isWordChar (tok.getLastD ' '))
    else c :: subWord tok repl fuel cs (isWordChar c)

/-- `re.sub(rf"\b{abbr}\.\b", abbr, s)`: the trailing `\b` sits after the dot, so
the pattern only fires when a word character follows the dot (gluing the two words
together, e.g. "ave.north" becomes "avenorth"). -/
def subAbbrDot (abbr : List Char) : Nat → List Char → Bool → List Char
  | 0, l, _ => l
  | _ + 1, [], _ => []
  | fuel + 1, c :: cs, prevW =>
    if !prevW && List.isPrefixOf (abbr ++ ['.']) (c :: cs) &&
       (match ((c :: cs).drop (abbr.length + 1)).head? with
        | none => false
        | some d => isWordChar d) then
      abbr ++ subAbbrDot abbr fuel ((c :: cs).drop (max (abbr.length + 1) 1)) false
    else c :: subAbbrDot abbr fuel cs (isWordChar c)

/-- The `ADDRESS_ABBREVS` table, in source (insertion) order. -/
def addressAbbrevs : List (List Char × List Char) :=
  [("avenue", "ave"), ("street", "st"), ("drive", "dr"), ("road", "rd"),
   ("boulevard", "blvd"), ("crescent", "cres"), ("place", "pl"),
   ("court", "crt"), ("lane", "ln"), ("terrace", "terr"),
   ("parkway", "pkwy"), ("highway", "hwy"), ("circle", "cir"),
   ("north", "n"), ("south", "s"), ("east", "e"), ("west", "w")].map
    (fun p => (p.1.data, p.2.data))

/-- The two substitution passes the source runs for each abbreviation pair. -/
def applyAbbrevs (l : List Char) : List Char :=
  addressAbbrevs.foldl (fun s p =>
    let s1 := subWord p.1 p.2 (s.length + 1) s false
    subAbbrDot p.2 (s1.length + 1) s1 false) l

/-- `normalize_address` from the source: lowercase, strip, remove unit markers,
abbreviate street and direction words, strip postal codes and province tokens,
commas and periods to spaces, collapse whitespace, strip. -/
def normalize_address (address : String) : String :=
  if address = "" then "" else
  let l := pyStrip (pyLower address.data)
  let l := scanSub unitMarkerLen (l.length + 1) l
  let l := applyAbbrevs l
  let l := scanSub postalLen (l.length + 1) l
  let l := scanSub provinceLen (l.length + 1) l
  let l := l.map (fun c => if c == ',' || c == '.' then ' ' else c)
  ⟨pyStrip (collapseWs l)⟩

/-- The running best block of `SequenceMatcher.find_longest_match`:
`a[besti : besti+bestsize]` equals `b[bestj : bestj+bestsize]`. -/
structure FlmSt where
  besti : Nat
  bestj : Nat
  bestsize : Nat
deriving Repr, DecidableEq

/-- `j2len.get(j-1, 0)` on the previous row of the dynamic program (`j2len.get(-1, 0)`
is `0` in Python, hence the explicit `j = 0` case). -/
def j2lPrev (prev : List (Nat × Nat)) (j : Nat) : Nat :=
  if j = 0 then 0 else ((prev.lookup (j - 1)).getD 0)

/-- The inner loop of `find_longest_match` for one row `i`: walk the ascending
occurrence list of `a[i]` in `b`, skipping `j < blo`, breaking at `j ≥ bhi`,
extending chains from the previous row and tracking the strictly best block. -/
def flmRow (prev : List (Nat × Nat)) (blo bhi i : Nat) :
    List Nat → List (Nat × Nat) → FlmSt → List (Nat × Nat) × FlmSt
  | [], acc, st => (acc, st)
  | j :: js, acc, st =>
    if j < blo then flmRow prev blo bhi i js acc st
    else if bhi ≤ j then (acc, st)
    else
      flmRow prev blo bhi i js (acc ++ [(j, j2lPrev prev j + 1)])
        (if st.bestsize < j2lPrev prev j + 1 then
          ⟨i + 1 - (j2lPrev prev j + 1), j + 1 - (j2lPrev prev j + 1), j2lPrev prev j + 1⟩
        else st)

/-- The outer loop of `find_longest_match` over `i in range(alo, ahi)`. -/
def flmRows (a : List Char) (b2j : Char → List Nat) (blo bhi : Nat) :
    List Nat → List (Nat × Nat) → FlmSt → FlmSt
  | [], _, st => st
  | i :: is, prev, st =>
    let p := flmRow prev blo bhi i (b2j (a.getD i ' ')) [] st
    flmRows a b2j blo bhi is p.1 p.2

/-- One of the two backward extension loops after the dynamic program: extend the
best block to the left over equal characters whose junk status equals `w`. -/
def extendLo (a b : List Char) (junk : Char → Bool) (alo blo : Nat) (w : Bool) :
    Nat → FlmSt → FlmSt
  | 0, st => st
  | fuel + 1, st =>
    if alo < st.besti ∧ blo < st.bestj ∧ junk (b.getD (st.bestj - 1) ' ') = w ∧
        a.getD (st.besti - 1) ' ' = b.getD (st.bestj - 1) ' ' then
      extendLo a b junk alo blo w fuel ⟨st.besti - 1, st.bestj - 1, st.bestsize + 1⟩
    else st

/-- One of the two forward extension loops: extend the best block to the right over
equal characters whose junk status equals `w`. -/
def extendHi (a b : List Char) (junk : Char → Bool) (ahi bhi : Nat) (w : Bool) :
    Nat → FlmSt → FlmSt
  | 0, st => st
  | fuel + 1, st =>
    if st.besti + st.bestsize < ahi ∧ st.bestj + st.bestsize < bhi ∧
        junk (b.getD (st.bestj + st.bestsize) ' ') = w ∧
        a.getD (st.besti + st.bestsize) ' ' = b.getD (st.bestj + st.bestsize) ' ' then
      extendHi a b junk ahi bhi w fuel ⟨st.besti, st.bestj, st.bestsize + 1⟩
    else st

/-- `SequenceMatcher.find_longest_match(alo, ahi, blo, bhi)`: the dynamic program
followed by the non-junk and junk extension loops (in source order). `junk` is
membership in `bjunk`, which is empty for `isjunk=None`. -/
def find_longest_match (a b : List Char) (b2j : Char → List Nat) (junk : Char → Bool)
    (alo ahi blo bhi : Nat) : FlmSt :=
  let fuel := a.length + b.length + 1
  let st0 := flmRows a b2j blo bhi (List.range' alo (ahi - alo)) [] ⟨alo, blo, 0⟩
  let st1 := extendLo a b junk alo blo false fuel st0
  let st2 := extendHi a b junk ahi bhi false fuel st1
  let st3 := extendLo a b junk alo blo true fuel st2
  extendHi a b junk ahi bhi true fuel st3

/-- Ascending list of positions of `c` in `b` (the `b2j` chains). -/
def positions (b : List Char) (c : Char) : List Nat :=
  (List.range b.length).filter (fun j => b.getD j ' ' == c)

/-- The autojunk rule of `__chain_b`: for `len(b) >= 200`, characters occurring in
more than one percent (plus one) of `b` are dropped from `b2j`. -/
def isPopular (b : List Char) (c : Char) : Bool :=
  decide (200 ≤ b.length) && decide (b.length / 100 + 1 < (positions b c).length)

/-- The `b2j` mapping after autojunk pruning. -/
def b2jF (b : List Char) (c : Char) : List Nat :=
  if isPopular b c then [] else positions b c

/-- Total size of all matching blocks of `get_matching_blocks`: the recursive
decomposition around each longest match (the queue order of the Python code does
not affect the sum, and the final merge of adjacent blocks preserves it). The fuel
dominates the recursion depth: each recursive call strictly shrinks its range. -/
def matchTotalF (a b : List Char) (b2j : Char → List Nat) (junk : Char → Bool) :
    Nat → Nat → Nat → Nat → Nat → Nat
  | 0, _, _, _, _ => 0
  | fuel + 1, alo, ahi, blo, bhi =>
    let st := find_longest_match a b b2j junk alo ahi blo bhi
    if st.bestsize = 0 then 0
    else
      st.bestsize +
      (if alo < st.besti ∧ blo < st.bestj then
        matchTotalF a b b2j junk fuel alo st.besti blo st.bestj else 0) +
      (if st.besti + st.bestsize < ahi ∧ st.bestj + st.bestsize < bhi then
        matchTotalF a b b2j junk fuel (st.besti + st.bestsize) ahi
          (st.bestj + st.bestsize) bhi else 0)

/-- `M`: the number of matched characters between `a` and `b`. -/
def matchTotal (a b : List Char) : Nat :=
  matchTotalF a b (b2jF b) (fun _ => false) (a.length + b.length + 1) 0 a.length 0 b.length

/-- `SequenceMatcher.ratio()`: `2M / T` as an exact rational (`1` when both
sequences are empty, per `_calculate_ratio`). -/
def pyRatio (a b : List Char) : ℚ :=
  if a.length + b.length = 0 then 1
  else (2 * matchTotal a b : ℕ) / ((a.length + b.length : ℕ) : ℚ)

/-- `similarity(a, b)` from the source: `0.0` when either string is empty, else the
`SequenceMatcher(None, a, b).ratio()`. -/
def similarity (a b : String) : ℚ :=
  if a = "" ∨ b = "" then 0 else pyRatio a.data b.data

/-- Round-half-to-even to an integer (the rounding mode of Python `round`). -/
def roundHalfEven (q : ℚ) : ℤ :=
  if q - ⌊q⌋ < 1/2 then ⌊q⌋
  else if 1/2 < q - ⌊q⌋ then ⌊q⌋ + 1
  else if ⌊q⌋ % 2 = 0 then ⌊q⌋ else ⌊q⌋ + 1

/-- `round(x, 3)` on scores, modelled exactly at three decimal digits. -/
def round3 (q : ℚ) : ℚ :=
  (roundHalfEven (q * 1000) : ℚ) / 1000

/-- First-occurrence deduplication, used to model the cardinalities of Python
`set(...)` values. -/
def addUniqueTok (l : List (List Char)) (x : List Char) : List (List Char) :=
  if x ∈ l then l else l ++ [x]

/-- Distinct tokens of a token list, first occurrences kept. -/
def dedupToks (l : List (List Char)) : List (List Char) :=
  l.foldl addUniqueTok []

/-- `re.match(r"^(\d{6,})", s)` captures the greedy leading digit run when it has
at least six digits. -/
def leadingDigits (s : String) : List Char :=
  s.data.takeWhile Char.isDigit

/-- The token-overlap ratio `len(name_tokens & cand_tokens) / max(len(name_tokens),
len(cand_tokens))` on the whitespace token sets of the normalized names. -/
def tokenOverlap (qn cn : String) : ℚ :=
  (((dedupToks (pySplit qn.data)).filter
      (fun t => t ∈ dedupToks (pySplit cn.data))).length : ℚ) /
    ((max (dedupToks (pySplit qn.data)).length (dedupToks (pySplit cn.data)).length : ℕ) : ℚ)

/-- Base similarity of `match_company` with the token-overlap boost
`score = max(score, overlap)` applied when both token sets are nonempty. -/
def companyScoreBase (qn cn : String) : ℚ :=
  if dedupToks (pySplit qn.data) ≠ [] ∧ dedupToks (pySplit cn.data) ≠ [] then
    max (similarity qn cn) (tokenOverlap qn cn)
  else similarity qn cn

/-- The score `match_company` computes for one candidate, on the already normalized
query `qn` and candidate `cn`: base similarity, token-overlap boost, and the
numbered-company override to `1.0` (the override assigns `1.0` outright, so it may
be read off first). -/
def companyScore (qn cn : String) : ℚ :=
  if 6 ≤ (leadingDigits qn).length ∧ 6 ≤ (leadingDigits cn).length ∧
      leadingDigits qn = leadingDigits cn then 1
  else companyScoreBase qn cn

/-- The score `match_person` computes on normalized names: base similarity with the
exact-equality override to `1.0`. -/
def personScore (qn cn : String) : ℚ :=
  if qn = cn then 1 else similarity qn cn

/-- `re.match(r"(\d+)\s+(.+)", s)`: captured (street number, remainder). `.+` cannot
cross a newline and `\s+` backtracks when the remainder would be empty, which is
what the final alternative models (only reachable for all-whitespace tails). -/
def addrNumSplit (s : String) : Option (List Char × List Char) :=
  let l := s.data
  let ds := l.takeWhile Char.isDigit
  if ds.isEmpty then none else
  let rest := l.drop ds.length
  let ws := rest.takeWhile pyWs
  if ws.isEmpty then none else
  let rem := rest.drop ws.length
  if !rem.isEmpty then
    some (ds, rem.takeWhile (fun c => c ≠ '\n'))
  else
    match (List.range ws.length).reverse.find?
        (fun p => decide (1 ≤ p) && decide (ws.getD p ' ' ≠ '\n')) with
    | some p => some (ds, (ws.drop p).takeWhile (fun c => c ≠ '\n'))
    | none => none

/-- The score `match_address` computes on normalized addresses: base similarity,
with the street-number boost `max(score, similarity(rest_a, rest_b) * 0.95)` when
both leading street numbers parse and agree. -/
def addressScore (qa ca : String) : ℚ :=
  match addrNumSplit qa, addrNumSplit ca with
  | some p1, some p2 =>
    if p1.1 = p2.1 then max (similarity qa ca) (similarity ⟨p1.2⟩ ⟨p2.2⟩ * (95 / 100))
    else similarity qa ca
  | _, _ => similarity qa ca

/-- A loosely typed candidate record with a `name` key; a missing or null name is
modelled by the empty string (`candidate.get("name", "")`). -/
structure Candidate where
  name : String
  source : String := ""
  entity_number : Option String := none
deriving Repr, DecidableEq

/-- A candidate record with an `address` key. -/
structure AddressCandidate where
  address : String
  source : String := ""
deriving Repr, DecidableEq

/-- A retained candidate augmented with its `_match_score` field. -/
structure MatchEntry (α : Type) where
  cand : α
  matchScore : ℚ
deriving Repr, DecidableEq

/-- Stable insertion by descending score: an element moves past exactly the
strictly greater scores, so equal scores keep their input order — the behaviour
of Python `list.sort(key=..., reverse=True)` (a stable sort). -/
def insertDesc {α : Type} (x : MatchEntry α) : List (MatchEntry α) → List (MatchEntry α)
  | [] => [x]
  | y :: ys => if y.matchScore ≤ x.matchScore then x :: y :: ys else y :: insertDesc x ys

/-- Stable sort by descending score. -/
def sortDesc {α : Type} : List (MatchEntry α) → List (MatchEntry α)
  | [] => []
  | x :: xs => insertDesc x (sortDesc xs)

/-- The filtering loop of `match_company` before sorting. -/
def matchCompanyPre (name : String) (candidates : List Candidate) (threshold : ℚ) :
    List (MatchEntry Candidate) :=
  if normalize_company_name name = "" then []
  else candidates.filterMap fun c =>
    if normalize_company_name c.name = "" then none
    else if threshold ≤ companyScore (normalize_company_name name) (normalize_company_name c.name) then
      some ⟨c, round3 (companyScore (normalize_company_name name) (normalize_company_name c.name))⟩
    else none

/-- `match_company(name, candidates, threshold=0.80)`. -/
def match_company (name : String) (candidates : List Candidate) (threshold : ℚ) :
    List (MatchEntry Candidate) :=
  sortDesc (matchCompanyPre name candidates threshold)

/-- The filtering loop of `match_person` before sorting. -/
def matchPersonPre (name : String) (candidates : List Candidate) (threshold : ℚ) :
    List (MatchEntry Candidate) :=
  if normalize_person_name name = "" then []
  else candidates.filterMap fun c =>
    if normalize_person_name c.name = "" then none
    else if threshold ≤ personScore (normalize_person_name name) (normalize_person_name c.name) then
      some ⟨c, round3 (personScore (normalize_person_name name) (normalize_person_name c.name))⟩
    else none

/-- `match_person(name, candidates, threshold=0.85)`. -/
def match_person (name : String) (candidates : List Candidate) (threshold : ℚ) :
    List (MatchEntry Candidate) :=
  sortDesc (matchPersonPre name candidates threshold)

/-- The filtering loop of `match_address` before sorting. -/
def matchAddressPre (address : String) (candidates : List AddressCandidate) (threshold : ℚ) :
    List (MatchEntry AddressCandidate) :=
  if normalize_address address = "" then []
  else candidates.filterMap fun c =>
    if normalize_address c.address = "" then none
    else if threshold ≤ addressScore (normalize_address address) (normalize_address c.address) then
      some ⟨c, round3 (addressScore (normalize_address address) (normalize_address c.address))⟩
    else none

/-- `match_address(address, candidates, threshold=0.75)`. -/
def match_address (address : String) (candidates : List AddressCandidate) (threshold : ℚ) :
    List (MatchEntry AddressCandidate) :=
  sortDesc (matchAddressPre address candidates threshold)

/-- A director/officer/shareholder entry of a registry record. -/
structure PersonRec where
  name : String := ""
  role : Option String := none
deriving Repr, DecidableEq

/-- A corporate-registry record as consumed by `cross_reference`; missing string
fields are modelled by the empty string (falsy in the source). -/
structure RegistryRecord where
  entity_name : String := ""
  entity_number : Option String := none
  directors : List PersonRec := []
  officers : List PersonRec := []
  shareholders : List PersonRec := []
deriving Repr, DecidableEq

/-- A transfer-list record (`vendor`/`purchaser` fields; empty string models a
missing or null field, which the source treats as falsy and skips). -/
structure TransferRecord where
  vendor : String := ""
  purchaser : String := ""
deriving Repr, DecidableEq

/-- A building-permit record (`owner` field; empty string models missing/null). -/
structure PermitRecord where
  owner : String := ""
deriving Repr, DecidableEq

/-- One cross-source link: either a registry link (registry fields set) or a
transfer-to-permit link (`transfer_entity` set), carrying the matched name, its
source, and the match score. -/
structure EntityLink where
  registry_entity : Option String := none
  entity_number : Option String := none
  transfer_entity : Option String := none
  matched_name : String
  matched_source : String
  score : ℚ
deriving Repr, DecidableEq

/-- The aggregate result of `cross_reference`. -/
structure CrossRefResult where
  entity_links : List EntityLink
  registry_companies : Nat
  transfer_companies : Nat
  permit_companies : Nat
  total_links_found : Nat
deriving Repr, DecidableEq

/-- The registry company pool: one entry per registry record (no deduplication in
the source). -/
def registryCompanyPool (registry_data : List RegistryRecord) : List Candidate :=
  registry_data.map fun r =>
    { name := r.entity_name, source := "registry", entity_number := r.entity_number }

/-- Insert a name into a pool unless already present (`set.add`). -/
def addNameUnique (l : List String) (x : String) : List String :=
  if x ∈ l then l else l ++ [x]

/-- Processing one transfer record into the name pool: non-falsy vendor then
non-falsy purchaser. -/
def transferPoolStep (acc : List String) (t : TransferRecord) : List String :=
  if t.purchaser ≠ "" then
    addNameUnique (if t.vendor ≠ "" then addNameUnique acc t.vendor else acc) t.purchaser
  else if t.vendor ≠ "" then addNameUnique acc t.vendor else acc

/-- The deduplicated vendor/purchaser name pool of the transfer list, in first
occurrence order (the model of the Python `set` of names). -/
def transferNamePool (transfers : List TransferRecord) : List String :=
  transfers.foldl transferPoolStep []

/-- Processing one permit record into the name pool. -/
def permitPoolStep (acc : List String) (p : PermitRecord) : List String :=
  if p.owner ≠ "" then addNameUnique acc p.owner else acc

/-- The deduplicated owner name pool of the permit list. -/
def permitNamePool (permits : List PermitRecord) : List String :=
  permits.foldl permitPoolStep []

/-- The transfer pool as candidate records tagged with source "transfer". -/
def transferCandidatePool (transfers : List TransferRecord) : List Candidate :=
  (transferNamePool transfers).map (fun n => { name := n, source := "transfer" })

/-- The permit pool as candidate records tagged with source "permit". -/
def permitCandidatePool (permits : List PermitRecord) : List Candidate :=
  (permitNamePool permits).map (fun n => { name := n, source := "permit" })

/-- Step 2 of `cross_reference`: each registry company matched against the union
of the transfer and permit pools. -/
def registryLinks (registry_data : List RegistryRecord) (transfers : List TransferRecord)
    (permits : List PermitRecord) (company_threshold : ℚ) : List EntityLink :=
  (registryCompanyPool registry_data).flatMap fun rc =>
    (match_company rc.name (transferCandidatePool transfers ++ permitCandidatePool permits)
        company_threshold).map fun m =>
      { registry_entity := some rc.name, entity_number := rc.entity_number,
        matched_name := m.cand.name, matched_source := m.cand.source,
        score := m.matchScore }

/-- Step 3 of `cross_reference`: each transfer company matched against the permit
pool. -/
def transferPermitLinks (transfers : List TransferRecord) (permits : List PermitRecord)
    (company_threshold : ℚ) : List EntityLink :=
  (transferCandidatePool transfers).flatMap fun tc =>
    (match_company tc.name (permitCandidatePool permits) company_threshold).map fun m =>
      { transfer_entity := some tc.name, matched_name := m.cand.name,
        matched_source := "permit", score := m.matchScore }

/-- `cross_reference(registry_data, transfers, permits, company_threshold=0.80)`:
build the pools, match every registry company against the union of the transfer
and permit pools, match every transfer company against the permit pool, and
aggregate the links with per-source pool sizes. -/
def cross_reference (registry_data : List RegistryRecord) (transfers : List TransferRecord)
    (permits : List PermitRecord) (company_threshold : ℚ) : CrossRefResult :=
  { entity_links := registryLinks registry_data transfers permits company_threshold ++
      transferPermitLinks transfers permits company_threshold,
    registry_companies := (registryCompanyPool registry_data).length,
    transfer_companies := (transferCandidatePool transfers).length,
    permit_companies := (permitCandidatePool permits).length,
    total_links_found := (registryLinks registry_data transfers permits company_threshold ++
      transferPermitLinks transfers permits company_threshold).length }

theorem mem_insertDesc {α : Type} (x z : MatchEntry α) (l : List (MatchEntry α)) :
    z ∈ insertDesc x l ↔ z = x ∨ z ∈ l := by
  induction l with
  | nil => simp [insertDesc]
  | cons y ys ih =>
    simp only [insertDesc]
    split
    · simp
    · simp only [List.mem_cons, ih]
      tauto

theorem pairwise_insertDesc {α : Type} (x : MatchEntry α) (l : List (MatchEntry α))
    (h : List.Pairwise (fun u v => v.matchScore ≤ u.matchScore) l) :
    List.Pairwise (fun u v => v.matchScore ≤ u.matchScore) (insertDesc x l) := by
  induction l with
  | nil => simp [insertDesc]
  | cons y ys ih =>
    rcases List.pairwise_cons.mp h with ⟨hy, hys⟩
    simp only [insertDesc]
    split
    · rename_i hle
      refine List.pairwise_cons.mpr ⟨?_, h⟩
      intro z hz
      rcases List.mem_cons.mp hz with rfl | hz
      · exact hle
      · exact le_trans (hy z hz) hle
    · rename_i hgt
      push_neg at hgt
      refine List.pairwise_cons.mpr ⟨?_, ih hys⟩
      intro z hz
      rcases (mem_insertDesc x z ys).mp hz with rfl | hz
      · exact le_of_lt hgt
      · exact hy z hz

theorem sortDesc_sorted {α : Type} (l : List (MatchEntry α)) :
    List.Pairwise (fun u v => v.matchScore ≤ u.matchScore) (sortDesc l) := by
  induction l with
  | nil => exact List.Pairwise.nil
  | cons x xs ih => exact pairwise_insertDesc x (sortDesc xs) ih

theorem mem_sortDesc {α : Type} (z : MatchEntry α) (l : List (MatchEntry α)) :
    z ∈ sortDesc l ↔ z ∈ l := by
  induction l with
  | nil => simp [sortDesc]
  | cons x xs ih =>
    simp only [sortDesc, mem_insertDesc, ih, List.mem_cons]

theorem filter_insertDesc {α : Type} (x : MatchEntry α) (l : List (MatchEntry α)) (s : ℚ) :
    (insertDesc x l).filter (fun e => decide (e.matchScore = s)) =
      if x.matchScore = s then x :: l.filter (fun e => decide (e.matchScore = s))
      else l.filter (fun e => decide (e.matchScore = s)) := by
  induction l with
  | nil =>
    by_cases hxs : x.matchScore = s <;> simp [insertDesc, List.filter, hxs]
  | cons y ys ih =>
    simp only [insertDesc]
    split
    · simp only [List.filter_cons]
      split <;> split <;> simp_all
    · rename_i hgt
      push_neg at hgt
      simp only [List.filter_cons, ih]
      by_cases hxs : x.matchScore = s
      · have hys : ¬ (y.matchScore = s) := by
          intro hy
          rw [hxs] at hgt
          rw [hy] at hgt
          exact lt_irrefl s hgt
        simp [hxs, hys]
      · simp [hxs]

theorem sortDesc_filter {α : Type} (l : List (MatchEntry α)) (s : ℚ) :
    (sortDesc l).filter (fun e => decide (e.matchScore = s)) =
      l.filter (fun e => decide (e.matchScore = s)) := by
  induction l with
  | nil => rfl
  | cons x xs ih =>
    simp only [sortDesc, filter_insertDesc, ih, List.filter_cons]
    split <;> simp_all

theorem map_filterMap_sublist {α β : Type} (l : List α) (f : α → Option β) (g : β → α)
    (h : ∀ a b, f a = some b → g b = a) : ((l.filterMap f).map g).Sublist l := by
  induction l with
  | nil => simp
  | cons a as ih =>
    cases hfa : f a with
    | none =>
      simp only [List.filterMap_cons, hfa]
      exact ih.cons a
    | some b =>
      simp only [List.filterMap_cons, hfa, List.map_cons, h a b hfa]
      exact ih.cons₂ a

theorem matchCompanyPre_cand_sublist (q : String) (cs : List Candidate) (t : ℚ) :
    ((matchCompanyPre q cs t).map (fun e => e.cand)).Sublist cs := by
  unfold matchCompanyPre
  split
  · simp
  · apply map_filterMap_sublist
    intro c e hfc
    simp only at hfc
    split at hfc
    · exact absurd hfc (by simp)
    · split at hfc
      · cases hfc
        rfl
      · exact absurd hfc (by simp)

theorem matchPersonPre_cand_sublist (q : String) (cs : List Candidate) (t : ℚ) :
    ((matchPersonPre q cs t).map (fun e => e.cand)).Sublist cs := by
  unfold matchPersonPre
  split
  · simp
  · apply map_filterMap_sublist
    intro c e hfc
    simp only at hfc
    split at hfc
    · exact absurd hfc (by simp)
    · split at hfc
      · cases hfc
        rfl
      · exact absurd hfc (by simp)

theorem matchAddressPre_cand_sublist (q : String) (cs : List AddressCandidate) (t : ℚ) :
    ((matchAddressPre q cs t).map (fun e => e.cand)).Sublist cs := by
  unfold matchAddressPre
  split
  · simp
  · apply map_filterMap_sublist
    intro c e hfc
    simp only at hfc
    split at hfc
    · exact absurd hfc (by simp)
    · split at hfc
      · cases hfc
        rfl
      · exact absurd hfc (by simp)

/-- C2: results of the three matchers are sorted by descending score, and
candidates with equal scores keep the relative order of the input candidate
list. -/
theorem claim_C2_results_sorted_and_stable (q : String) (cs : List Candidate)
    (addrs : List AddressCandidate) (t s : ℚ) :
    (List.Pairwise (fun u v => v.matchScore ≤ u.matchScore) (match_company q cs t) ∧
      (((match_company q cs t).filter (fun e => decide (e.matchScore = s))).map
        (fun e => e.cand)).Sublist cs) ∧
    (List.Pairwise (fun u v => v.matchScore ≤ u.matchScore) (match_person q cs t) ∧
      (((match_person q cs t).filter (fun e => decide (e.matchScore = s))).map
        (fun e => e.cand)).Sublist cs) ∧
    (List.Pairwise (fun u v => v.matchScore ≤ u.matchScore) (match_address q addrs t) ∧
      (((match_address q addrs t).filter (fun e => decide (e.matchScore = s))).map
        (fun e => e.cand)).Sublist addrs) := by
  refine ⟨⟨sortDesc_sorted _, ?_⟩, ⟨sortDesc_sorted _, ?_⟩, ⟨sortDesc_sorted _, ?_⟩⟩
  · rw [match_company, sortDesc_filter]
    exact List.Sublist.trans
      (List.Sublist.map _ (List.filter_sublist _)) (matchCompanyPre_cand_sublist q cs t)
  · rw [match_person, sortDesc_filter]
    exact List.Sublist.trans
      (List.Sublist.map _ (List.filter_sublist _)) (matchPersonPre_cand_sublist q cs t)
  · rw [match_address, sortDesc_filter]
    exact List.Sublist.trans
      (List.Sublist.map _ (List.filter_sublist _)) (matchAddressPre_cand_sublist q addrs t)

/-- Invariant of the best-block state: the block lies inside the ranges
(`besti/bestj` sit at the range starts while no block has been found). -/
def StOk (alo ahi blo bhi : Nat) (st : FlmSt) : Prop :=
  alo ≤ st.besti ∧ blo ≤ st.bestj ∧
  (st.bestsize = 0 ∧ st.besti = alo ∧ st.bestj = blo ∨
    st.besti + st.bestsize ≤ ahi ∧ st.bestj + st.bestsize ≤ bhi)

/-- Invariant of a dynamic-programming row: keys are in range and chain lengths
are bounded by the key position and by the number of rows processed. -/
def RowOk (alo blo bhi bound : Nat) (row : List (Nat × Nat)) : Prop :=
  ∀ p ∈ row, blo ≤ p.1 ∧ p.1 < bhi ∧ p.2 + blo ≤ p.1 + 1 ∧ p.2 + alo ≤ bound

theorem mem_of_lookup_eq_some {l : List (Nat × Nat)} {k v : Nat}
    (h : l.lookup k = some v) : (k, v) ∈ l := by
  induction l with
  | nil => simp [List.lookup] at h
  | cons p ps ih =>
    obtain ⟨a, b⟩ := p
    by_cases hk : k = a
    · subst hk
      simp [List.lookup] at h
      simp [h]
    · rw [List.lookup] at h
      have : (k == a) = false := by simp [hk]
      rw [this] at h
      exact List.mem_cons_of_mem _ (ih h)

theorem j2lPrev_bound (alo blo bhi bound : Nat) (prev : List (Nat × Nat))
    (hprev : RowOk alo blo bhi bound prev) (j : Nat) :
    j2lPrev prev j + blo ≤ j ∧ j2lPrev prev j + alo ≤ bound ∨
      j2lPrev prev j = 0 := by
  unfold j2lPrev
  split
  · exact Or.inr rfl
  · rename_i hj0
    cases hl : prev.lookup (j - 1) with
    | none => simp
    | some w =>
      simp only [hl, Option.getD_some]
      have := hprev _ (mem_of_lookup_eq_some hl)
      left
      omega

theorem flmRow_ok (alo ahi blo bhi i : Nat) (prev : List (Nat × Nat))
    (hprev : RowOk alo blo bhi i prev) (hialo : alo ≤ i) (hiahi : i < ahi) :
    ∀ (js : List Nat) (acc : List (Nat × Nat)) (st : FlmSt),
      RowOk alo blo bhi (i + 1) acc → StOk alo ahi blo bhi st →
      RowOk alo blo bhi (i + 1) (flmRow prev blo bhi i js acc st).1 ∧
        StOk alo ahi blo bhi (flmRow prev blo bhi i js acc st).2 := by
  intro js
  induction js with
  | nil =>
    intro acc st ha hs
    exact ⟨ha, hs⟩
  | cons j js ih =>
    intro acc st ha hs
    rw [flmRow]
    split
    · exact ih acc st ha hs
    · split
      · exact ⟨ha, hs⟩
      · rename_i hjlo hjhi
        have hblo : blo ≤ j := by omega
        have hbhi : j < bhi := by omega
        have hv : j2lPrev prev j + 1 + blo ≤ j + 1 ∧ j2lPrev prev j + 1 + alo ≤ i + 1 := by
          rcases j2lPrev_bound alo blo bhi i prev hprev j with ⟨h1, h2⟩ | h0
          · omega
          · omega
        apply ih
        · intro p hp
          rcases List.mem_append.mp hp with hp | hp
          · exact ha p hp
          · rcases List.mem_singleton.mp hp with rfl
            refine ⟨hblo, hbhi, ?_, ?_⟩ <;> omega
        · rcases hs with ⟨hs1, hs2, hs3⟩
          split
          · refine ⟨?_, ?_, Or.inr ⟨?_, ?_⟩⟩ <;> dsimp only <;> omega
          · exact ⟨hs1, hs2, hs3⟩

theorem flmRows_ok (a : List Char) (b2j : Char → List Nat) (alo ahi blo bhi : Nat) :
    ∀ (n i0 : Nat) (prev : List (Nat × Nat)) (st : FlmSt),
      alo ≤ i0 → i0 + n ≤ ahi → RowOk alo blo bhi i0 prev → StOk alo ahi blo bhi st →
      StOk alo ahi blo bhi (flmRows a b2j blo bhi (List.range' i0 n) prev st) := by
  intro n
  induction n with
  | zero =>
    intro i0 prev st _ _ _ hst
    simpa [flmRows] using hst
  | succ n ih =>
    intro i0 prev st h1 h2 hrow hst
    rw [List.range'_succ, flmRows]
    have hstep := flmRow_ok alo ahi blo bhi i0 prev hrow h1 (by omega)
      (b2j (a.getD i0 ' ')) [] st (by intro p hp; simp at hp) hst
    exact ih (i0 + 1) _ _ (by omega) (by omega) hstep.1 hstep.2

theorem extendLo_ok (a b : List Char) (junk : Char → Bool) (alo blo : Nat) (w : Bool)
    (ahi bhi : Nat) :
    ∀ (fuel : Nat) (st : FlmSt), StOk alo ahi blo bhi st →
      StOk alo ahi blo bhi (extendLo a b junk alo blo w fuel st) := by
  intro fuel
  induction fuel with
  | zero => intro st h; exact h
  | succ fuel ih =>
    intro st h
    rw [extendLo]
    split
    · rename_i hc
      obtain ⟨hc1, hc2, -, -⟩ := hc
      obtain ⟨h1, h2, h3⟩ := h
      apply ih
      rcases h3 with ⟨hz, hbi, hbj⟩ | ⟨hs1, hs2⟩ <;>
        refine ⟨?_, ?_, Or.inr ?_⟩ <;> dsimp only <;> omega
    · exact h

theorem extendHi_ok (a b : List Char) (junk : Char → Bool) (ahi bhi : Nat) (w : Bool)
    (alo blo : Nat) :
    ∀ (fuel : Nat) (st : FlmSt), StOk alo ahi blo bhi st →
      StOk alo ahi blo bhi (extendHi a b junk ahi bhi w fuel st) := by
  intro fuel
  induction fuel with
  | zero => intro st h; exact h
  | succ fuel ih =>
    intro st h
    rw [extendHi]
    split
    · rename_i hc
      obtain ⟨hc1, hc2, -, -⟩ := hc
      obtain ⟨h1, h2, h3⟩ := h
      apply ih
      refine ⟨?_, ?_, Or.inr ?_⟩ <;> dsimp only <;> omega
    · exact h

theorem find_longest_match_ok (a b : List Char) (b2j : Char → List Nat) (junk : Char → Bool)
    (alo ahi blo bhi : Nat) :
    StOk alo ahi blo bhi (find_longest_match a b b2j junk alo ahi blo bhi) := by
  simp only [find_longest_match]
  apply extendHi_ok
  apply extendLo_ok
  apply extendHi_ok
  apply extendLo_ok
  by_cases hcase : alo ≤ ahi
  · exact flmRows_ok a b2j alo ahi blo bhi (ahi - alo) alo [] ⟨alo, blo, 0⟩ le_rfl (by omega)
      (by intro p hp; simp at hp) ⟨le_rfl, le_rfl, Or.inl ⟨rfl, rfl, rfl⟩⟩
  · have h0 : ahi - alo = 0 := by omega
    rw [h0]
    exact ⟨le_rfl, le_rfl, Or.inl ⟨rfl, rfl, rfl⟩⟩

theorem matchTotalF_le (a b : List Char) (b2j : Char → List Nat) (junk : Char → Bool) :
    ∀ (fuel alo ahi blo bhi : Nat),
      matchTotalF a b b2j junk fuel alo ahi blo bhi + alo ≤ ahi ∧
        matchTotalF a b b2j junk fuel alo ahi blo bhi + blo ≤ bhi ∨
        matchTotalF a b b2j junk fuel alo ahi blo bhi = 0 := by
  intro fuel
  induction fuel with
  | zero =>
    intro alo ahi blo bhi
    right
    rfl
  | succ fuel ih =>
    intro alo ahi blo bhi
    simp only [matchTotalF]
    have hst := find_longest_match_ok a b b2j junk alo ahi blo bhi
    generalize hFL : find_longest_match a b b2j junk alo ahi blo bhi = st
    rw [hFL] at hst
    obtain ⟨h1, h2, h3⟩ := hst
    split
    · right
      rfl
    · rename_i hsz
      rcases h3 with ⟨hz, -, -⟩ | ⟨hs1, hs2⟩
      · exact absurd hz hsz
      left
      have IH1 := ih alo st.besti blo st.bestj
      have IH2 := ih (st.besti + st.bestsize) ahi (st.bestj + st.bestsize) bhi
      constructor
      · split <;> split <;> omega
      · split <;> split <;> omega

theorem matchTotal_le (a b : List Char) :
    2 * matchTotal a b ≤ a.length + b.length := by
  unfold matchTotal
  rcases matchTotalF_le a b (b2jF b) (fun _ => false) (a.length + b.length + 1)
      0 a.length 0 b.length with ⟨ha, hb⟩ | h0
  · omega
  · omega

theorem pyRatio_nonneg (a b : List Char) : 0 ≤ pyRatio a b := by
  unfold pyRatio
  split
  · norm_num
  · positivity

theorem pyRatio_le_one (a b : List Char) : pyRatio a b ≤ 1 := by
  unfold pyRatio
  split
  · exact le_rfl
  · rename_i h
    rw [div_le_one (by positivity)]
    have := matchTotal_le a b
    exact_mod_cast this

theorem similarity_nonneg (a b : String) : 0 ≤ similarity a b := by
  unfold similarity
  split
  · exact le_rfl
  · exact pyRatio_nonneg _ _

theorem similarity_le_one (a b : String) : similarity a b ≤ 1 := by
  unfold similarity
  split
  · norm_num
  · exact pyRatio_le_one _ _

theorem tokenOverlap_nonneg (qn cn : String) : 0 ≤ tokenOverlap qn cn := by
  unfold tokenOverlap
  positivity

theorem tokenOverlap_le_one (qn cn : String)
    (h : dedupToks (pySplit qn.data) ≠ []) : tokenOverlap qn cn ≤ 1 := by
  unfold tokenOverlap
  rw [div_le_one]
  · have hle : ((dedupToks (pySplit qn.data)).filter
        (fun t => t ∈ dedupToks (pySplit cn.data))).length ≤
        max (dedupToks (pySplit qn.data)).length (dedupToks (pySplit cn.data)).length := by
      have := (List.filter_sublist (l := dedupToks (pySplit qn.data))
        (p := fun t => decide (t ∈ dedupToks (pySplit cn.data)))).length_le
      omega
    exact_mod_cast hle
  · have hpos : 0 < max (dedupToks (pySplit qn.data)).length
        (dedupToks (pySplit cn.data)).length := by
      have : (dedupToks (pySplit qn.data)).length ≠ 0 := by
        simpa [List.length_eq_zero] using h
      omega
    exact_mod_cast hpos

theorem companyScore_nonneg (qn cn : String) : 0 ≤ companyScore qn cn := by
  unfold companyScore companyScoreBase
  split
  · norm_num
  · split
    · exact le_trans (similarity_nonneg qn cn) (le_max_left _ _)
    · exact similarity_nonneg qn cn

theorem companyScore_le_one (qn cn : String) : companyScore qn cn ≤ 1 := by
  unfold companyScore companyScoreBase
  split
  · exact le_rfl
  · split
    · rename_i hne
      exact max_le (similarity_le_one qn cn) (tokenOverlap_le_one qn cn hne.1)
    · exact similarity_le_one qn cn

theorem personScore_nonneg (qn cn : String) : 0 ≤ personScore qn cn := by
  unfold personScore
  split
  · norm_num
  · exact similarity_nonneg qn cn

theorem personScore_le_one (qn cn : String) : personScore qn cn ≤ 1 := by
  unfold personScore
  split
  · exact le_rfl
  · exact similarity_le_one qn cn

theorem addressScore_nonneg (qa ca : String) : 0 ≤ addressScore qa ca := by
  unfold addressScore
  split
  · split
    · exact le_trans (similarity_nonneg qa ca) (le_max_left _ _)
    · exact similarity_nonneg qa ca
  · exact similarity_nonneg qa ca

theorem addressScore_le_one (qa ca : String) : addressScore qa ca ≤ 1 := by
  unfold addressScore
  split
  · rename_i p1 p2 hp1 hp2
    split
    · apply max_le (similarity_le_one qa ca)
      have h1 := similarity_nonneg (⟨p1.2⟩ : String) (⟨p2.2⟩ : String)
      have h2 := similarity_le_one (⟨p1.2⟩ : String) (⟨p2.2⟩ : String)
      nlinarith
    · exact similarity_le_one qa ca
  · exact similarity_le_one qa ca

theorem roundHalfEven_nonneg (q : ℚ) (h : 0 ≤ q) : 0 ≤ roundHalfEven q := by
  unfold roundHalfEven
  have hf : (0:ℤ) ≤ ⌊q⌋ := Int.floor_nonneg.mpr h
  split
  · exact hf
  · split
    · omega
    · split <;> omega

theorem roundHalfEven_le (q : ℚ) (z : ℤ) (h : q ≤ z) : roundHalfEven q ≤ z := by
  unfold roundHalfEven
  have hfz : ⌊q⌋ ≤ z := by
    calc ⌊q⌋ ≤ ⌊(z:ℚ)⌋ := Int.floor_le_floor h
    _ = z := Int.floor_intCast z
  split
  · exact hfz
  · rename_i h1
    have hlt : ⌊q⌋ < z := by
      by_contra hcon
      push_neg at hcon
      have : q ≤ (⌊q⌋ : ℚ) := le_trans h (by exact_mod_cast hcon)
      have : q - ⌊q⌋ ≤ 0 := by linarith
      linarith
    split
    · omega
    · split
      · omega
      · omega

theorem round3_nonneg (q : ℚ) (h : 0 ≤ q) : 0 ≤ round3 q := by
  unfold round3
  have := roundHalfEven_nonneg (q * 1000) (by positivity)
  positivity

theorem round3_le_one (q : ℚ) (h : q ≤ 1) : round3 q ≤ 1 := by
  unfold round3
  have hr : roundHalfEven (q * 1000) ≤ (1000 : ℤ) :=
    roundHalfEven_le (q * 1000) 1000 (by push_cast; linarith)
  rw [div_le_one (by norm_num)]
  exact_mod_cast hr

theorem mem_match_company {q : String} {cs : List Candidate} {t : ℚ}
    {e : MatchEntry Candidate} (he : e ∈ match_company q cs t) :
    ∃ c ∈ cs, e.cand = c ∧
      t ≤ companyScore (normalize_company_name q) (normalize_company_name c.name) ∧
      e.matchScore =
        round3 (companyScore (normalize_company_name q) (normalize_company_name c.name)) := by
  rw [match_company, mem_sortDesc] at he
  unfold matchCompanyPre at he
  split at he
  · simp at he
  · rcases List.mem_filterMap.mp he with ⟨c, hc, hfc⟩
    refine ⟨c, hc, ?_⟩
    split at hfc
    · exact absurd hfc (by simp)
    · split at hfc
      · rename_i hthr
        cases hfc
        exact ⟨rfl, hthr, rfl⟩
      · exact absurd hfc (by simp)

theorem mem_match_person {q : String} {cs : List Candidate} {t : ℚ}
    {e : MatchEntry Candidate} (he : e ∈ match_person q cs t) :
    ∃ c ∈ cs, e.cand = c ∧
      t ≤ personScore (normalize_person_name q) (normalize_person_name c.name) ∧
      e.matchScore =
        round3 (personScore (normalize_person_name q) (normalize_person_name c.name)) := by
  rw [match_person, mem_sortDesc] at he
  unfold matchPersonPre at he
  split at he
  · simp at he
  · rcases List.mem_filterMap.mp he with ⟨c, hc, hfc⟩
    refine ⟨c, hc, ?_⟩
    split at hfc
    · exact absurd hfc (by simp)
    · split at hfc
      · rename_i hthr
        cases hfc
        exact ⟨rfl, hthr, rfl⟩
      · exact absurd hfc (by simp)

theorem mem_match_address {q : String} {cs : List AddressCandidate} {t : ℚ}
    {e : MatchEntry AddressCandidate} (he : e ∈ match_address q cs t) :
    ∃ c ∈ cs, e.cand = c ∧
      t ≤ addressScore (normalize_address q) (normalize_address c.address) ∧
      e.matchScore =
        round3 (addressScore (normalize_address q) (normalize_address c.address)) := by
  rw [match_address, mem_sortDesc] at he
  unfold matchAddressPre at he
  split at he
  · simp at he
  · rcases List.mem_filterMap.mp he with ⟨c, hc, hfc⟩
    refine ⟨c, hc, ?_⟩
    split at hfc
    · exact absurd hfc (by simp)
    · split at hfc
      · rename_i hthr
        cases hfc
        exact ⟨rfl, hthr, rfl⟩
      · exact absurd hfc (by simp)

theorem match_company_score_unit {q : String} {cs : List Candidate} {t : ℚ}
    {e : MatchEntry Candidate} (he : e ∈ match_company q cs t) :
    0 ≤ e.matchScore ∧ e.matchScore ≤ 1 := by
  rcases mem_match_company he with ⟨c, -, -, -, hsc⟩
  rw [hsc]
  exact ⟨round3_nonneg _ (companyScore_nonneg _ _), round3_le_one _ (companyScore_le_one _ _)⟩

theorem match_person_score_unit {q : String} {cs : List Candidate} {t : ℚ}
    {e : MatchEntry Candidate} (he : e ∈ match_person q cs t) :
    0 ≤ e.matchScore ∧ e.matchScore ≤ 1 := by
  rcases mem_match_person he with ⟨c, -, -, -, hsc⟩
  rw [hsc]
  exact ⟨round3_nonneg _ (personScore_nonneg _ _), round3_le_one _ (personScore_le_one _ _)⟩

theorem match_address_score_unit {q : String} {cs : List AddressCandidate} {t : ℚ}
    {e : MatchEntry AddressCandidate} (he : e ∈ match_address q cs t) :
    0 ≤ e.matchScore ∧ e.matchScore ≤ 1 := by
  rcases mem_match_address he with ⟨c, -, -, -, hsc⟩
  rw [hsc]
  exact ⟨round3_nonneg _ (addressScore_nonneg _ _), round3_le_one _ (addressScore_le_one _ _)⟩

theorem cross_reference_link_score_unit {regs : List RegistryRecord}
    {trs : List TransferRecord} {pms : List PermitRecord} {t : ℚ} {lk : EntityLink}
    (hlk : lk ∈ (cross_reference regs trs pms t).entity_links) :
    0 ≤ lk.score ∧ lk.score ≤ 1 := by
  unfold cross_reference at hlk
  simp only at hlk
  rcases List.mem_append.mp hlk with h | h
  · unfold registryLinks at h
    rcases List.mem_flatMap.mp h with ⟨rc, -, hm⟩
    rcases List.mem_map.mp hm with ⟨m, hmem, hml⟩
    have := match_company_score_unit hmem
    rw [← hml]
    exact this
  · unfold transferPermitLinks at h
    rcases List.mem_flatMap.mp h with ⟨tc, -, hm⟩
    rcases List.mem_map.mp hm with ⟨m, hmem, hml⟩
    have := match_company_score_unit hmem
    rw [← hml]
    exact this

/-- C3: under a threshold in the unit interval, every reported score of the three
matchers and every link score produced by the cross-referencer lies in `[0, 1]`. -/
theorem claim_C3_scores_unit_interval (qc qp qa : String) (cs : List Candidate)
    (addrs : List AddressCandidate) (regs : List RegistryRecord)
    (trs : List TransferRecord) (pms : List PermitRecord) (t : ℚ)
    (ht0 : 0 ≤ t) (ht1 : t ≤ 1) :
    (∀ e ∈ match_company qc cs t, 0 ≤ e.matchScore ∧ e.matchScore ≤ 1) ∧
    (∀ e ∈ match_person qp cs t, 0 ≤ e.matchScore ∧ e.matchScore ≤ 1) ∧
    (∀ e ∈ match_address qa addrs t, 0 ≤ e.matchScore ∧ e.matchScore ≤ 1) ∧
    (∀ lk ∈ (cross_reference regs trs pms t).entity_links, 0 ≤ lk.score ∧ lk.score ≤ 1) := by
  exact ⟨fun e he => match_company_score_unit he,
    fun e he => match_person_score_unit he,
    fun e he => match_address_score_unit he,
    fun lk hlk => cross_reference_link_score_unit hlk⟩

theorem round3_one : round3 1 = 1 := by
  unfold round3 roundHalfEven
  norm_num

/-- C4: when both normalized names start with the same run of at least six digits,
`match_company` scores the candidate exactly `1.0` (for any threshold at most 1,
which includes the default 0.80). -/
theorem claim_C4_numbered_company_identity (q : String) (c : Candidate) (t : ℚ)
    (h6 : 6 ≤ (leadingDigits (normalize_company_name q)).length)
    (h6c : 6 ≤ (leadingDigits (normalize_company_name c.name)).length)
    (heq : leadingDigits (normalize_company_name q) =
      leadingDigits (normalize_company_name c.name))
    (ht : t ≤ 1) :
    match_company q [c] t = [⟨c, 1⟩] := by
  have hq : ¬ (normalize_company_name q = "") := by
    intro h
    rw [h] at h6
    exact absurd h6 (by decide)
  have hc : ¬ (normalize_company_name c.name = "") := by
    intro h
    rw [h] at h6c
    exact absurd h6c (by decide)
  have hsc : companyScore (normalize_company_name q) (normalize_company_name c.name) = 1 := by
    unfold companyScore
    rw [if_pos ⟨h6, h6c, heq⟩]
  unfold match_company matchCompanyPre
  rw [if_neg hq]
  simp only [List.filterMap_cons, List.filterMap_nil, hsc, round3_one]
  rw [if_neg hc, if_pos ht]
  rfl

/-- C7: when the normalized person names coincide (lowercased, punctuation
stripped, tokens sorted), `match_person` scores the candidate exactly `1.0`. -/
theorem claim_C7_person_exact_match (q : String) (c : Candidate) (t : ℚ)
    (hne : normalize_person_name q ≠ "")
    (heq : normalize_person_name q = normalize_person_name c.name)
    (ht : t ≤ 1) :
    match_person q [c] t = [⟨c, 1⟩] := by
  have hc : ¬ (normalize_person_name c.name = "") := by
    rw [← heq]
    exact hne
  have hsc : personScore (normalize_person_name q) (normalize_person_name c.name) = 1 := by
    unfold personScore
    rw [if_pos heq]
  unfold match_person matchPersonPre
  rw [if_neg hne]
  simp only [List.filterMap_cons, List.filterMap_nil, hsc, round3_one]
  rw [if_neg hc, if_pos ht]
  rfl

theorem claim_C4_witness :
    6 ≤ (leadingDigits (normalize_company_name "102118427 Saskatchewan Ltd.")).length ∧
    6 ≤ (leadingDigits (normalize_company_name "102118427 Saskatchewan Inc")).length ∧
    leadingDigits (normalize_company_name "102118427 Saskatchewan Ltd.") =
      leadingDigits (normalize_company_name "102118427 Saskatchewan Inc") ∧
    (4 / 5 : ℚ) ≤ 1 ∧
    match_company "102118427 Saskatchewan Ltd."
      [{ name := "102118427 Saskatchewan Inc" }] (4 / 5) =
      [⟨{ name := "102118427 Saskatchewan Inc" }, 1⟩] :=
  ⟨by decide, by decide, by decide, by norm_num,
    claim_C4_numbered_company_identity "102118427 Saskatchewan Ltd."
      { name := "102118427 Saskatchewan Inc" } (4 / 5)
      (by decide) (by decide) (by decide) (by norm_num)⟩

theorem claim_C7_witness :
    normalize_person_name "BATTING TRAVIS" ≠ "" ∧
    normalize_person_name "BATTING TRAVIS" = normalize_person_name "Travis Batting" ∧
    (17 / 20 : ℚ) ≤ 1 ∧
    match_person "BATTING TRAVIS" [{ name := "Travis Batting" }] (17 / 20) =
      [⟨{ name := "Travis Batting" }, 1⟩] :=
  ⟨by decide, by decide, by norm_num,
    claim_C7_person_exact_match "BATTING TRAVIS" { name := "Travis Batting" } (17 / 20)
      (by decide) (by decide) (by norm_num)⟩

theorem similarity_acme : similarity "acme" "acme" = 1 := by
  unfold similarity
  rw [if_neg (by decide)]
  unfold pyRatio
  rw [if_neg (by decide)]
  have hM : matchTotal "acme".data "acme".data = 4 := by decide
  rw [hM]
  norm_num

theorem companyScore_acme : companyScore "acme" "acme" = 1 := by
  unfold companyScore
  rw [if_neg (by decide)]
  unfold companyScoreBase
  rw [if_pos (by decide)]
  have hov : tokenOverlap "acme" "acme" = 1 := by
    unfold tokenOverlap
    have h1 : ((dedupToks (pySplit "acme".data)).filter
        (fun t => t ∈ dedupToks (pySplit "acme".data))).length = 1 := by decide
    have h2 : max (dedupToks (pySplit "acme".data)).length
        (dedupToks (pySplit "acme".data)).length = 1 := by decide
    rw [h1, h2]
    norm_num
  rw [similarity_acme, hov]
  exact max_self 1

/-- C6 counterexample: no clamping or rejection of an out-of-range threshold
happens. With threshold `2`, the exact-identity candidate (raw score `1.0`) is
silently filtered away, although every threshold clamped into `[0,1]` keeps it. -/
theorem claim_C6_counterexample :
    match_company "acme" [{ name := "acme" }] 2 = [] ∧
    (∀ t : ℚ, t ≤ 1 →
      match_company "acme" [{ name := "acme" }] t = [⟨{ name := "acme" }, 1⟩]) := by
  have hn : normalize_company_name "acme" = "acme" := by decide
  constructor
  · unfold match_company matchCompanyPre
    rw [if_neg (by decide)]
    simp only [List.filterMap_cons, List.filterMap_nil, hn, companyScore_acme]
    rw [if_neg (by decide), if_neg (by norm_num)]
    rfl
  · intro t ht
    unfold match_company matchCompanyPre
    rw [if_neg (by decide)]
    simp only [List.filterMap_cons, List.filterMap_nil, hn, companyScore_acme, round3_one]
    rw [if_neg (by decide), if_pos ht]
    rfl

/-- C6 amended: the threshold is used verbatim with no clamping and no rejection;
in particular any threshold above `1` exceeds every possible score, so all the
matchers and the cross-referencer silently return empty results. -/
theorem claim_C6_amended_no_threshold_validation (qc qp qa : String) (cs : List Candidate)
    (addrs : List AddressCandidate) (regs : List RegistryRecord)
    (trs : List TransferRecord) (pms : List PermitRecord) (t : ℚ) (ht : 1 < t) :
    match_company qc cs t = [] ∧ match_person qp cs t = [] ∧
    match_address qa addrs t = [] ∧
    (cross_reference regs trs pms t).entity_links = [] := by
  have hco : ∀ (q2 : String) (cs2 : List Candidate), match_company q2 cs2 t = [] := by
    intro q2 cs2
    rw [List.eq_nil_iff_forall_not_mem]
    intro e he
    rcases mem_match_company he with ⟨c, -, -, hthr, -⟩
    have := companyScore_le_one (normalize_company_name q2) (normalize_company_name c.name)
    linarith
  refine ⟨hco qc cs, ?_, ?_, ?_⟩
  · rw [List.eq_nil_iff_forall_not_mem]
    intro e he
    rcases mem_match_person he with ⟨c, -, -, hthr, -⟩
    have := personScore_le_one (normalize_person_name qp) (normalize_person_name c.name)
    linarith
  · rw [List.eq_nil_iff_forall_not_mem]
    intro e he
    rcases mem_match_address he with ⟨c, -, -, hthr, -⟩
    have := addressScore_le_one (normalize_address qa) (normalize_address c.address)
    linarith
  · unfold cross_reference
    simp only
    rw [List.append_eq_nil]
    constructor
    · unfold registryLinks
      rw [List.eq_nil_iff_forall_not_mem]
      intro lk hlk
      rcases List.mem_flatMap.mp hlk with ⟨rc, -, hm⟩
      rcases List.mem_map.mp hm with ⟨m, hmem, -⟩
      rw [hco _ _] at hmem
      exact absurd hmem (List.not_mem_nil m)
    · unfold transferPermitLinks
      rw [List.eq_nil_iff_forall_not_mem]
      intro lk hlk
      rcases List.mem_flatMap.mp hlk with ⟨tc, -, hm⟩
      rcases List.mem_map.mp hm with ⟨m, hmem, -⟩
      rw [hco _ _] at hmem
      exact absurd hmem (List.not_mem_nil m)

theorem claim_C6_amended_witness :
    (1 : ℚ) < 2 ∧
    (match_company "acme" [{ name := "acme" }] 2 = [] ∧
      match_person "acme" [{ name := "acme" }] 2 = [] ∧
      match_address "10 main" [{ address := "10 main" }] 2 = [] ∧
      (cross_reference [] [] [] 2).entity_links = [])
 := by
  constructor
  · norm_num
  · exact claim_C6_amended_no_threshold_validation "acme" "acme" "10 main"
      [{ name := "acme" }] [{ address := "10 main" }] [] [] [] 2 (by norm_num)

theorem claim_C3_witness :
    (0 : ℚ) ≤ 1 ∧ (1 : ℚ) ≤ 1 ∧
    ((∀ e ∈ match_company "acme" [{ name := "acme" }] 1,
        0 ≤ e.matchScore ∧ e.matchScore ≤ 1) ∧
      (∀ e ∈ match_person "acme" [{ name := "acme" }] 1,
        0 ≤ e.matchScore ∧ e.matchScore ≤ 1) ∧
      (∀ e ∈ match_address "10 main" [{ address := "10 main" }] 1,
        0 ≤ e.matchScore ∧ e.matchScore ≤ 1) ∧
      (∀ lk ∈ (cross_reference [] [] [] 1).entity_links,
        0 ≤ lk.score ∧ lk.score ≤ 1)) :=
  ⟨zero_le_one, le_rfl,
    claim_C3_scores_unit_interval "acme" "acme" "10 main" [{ name := "acme" }]
      [{ address := "10 main" }] [] [] [] 1 zero_le_one le_rfl⟩

theorem round3_eq_one_of (s : ℚ) (h1 : 1999 / 2000 ≤ s) (h2 : s ≤ 1) : round3 s = 1 := by
  unfold round3
  rcases eq_or_lt_of_le (show s * 1000 ≤ 1000 by linarith) with he | hl
  · rw [he]
    unfold roundHalfEven
    norm_num
  · have hfl : ⌊s * 1000⌋ = 999 := by
      rw [Int.floor_eq_iff]
      constructor
      · push_cast
        linarith
      · push_cast
        linarith
    unfold roundHalfEven
    rw [hfl]
    have hr1 : (1 : ℚ) / 2 ≤ s * 1000 - 999 := by linarith
    split
    · rename_i hc
      push_cast at hc
      linarith
    · split
      · norm_num
      · split
        · rename_i hodd
          norm_num at hodd
        · norm_num

theorem match_company_exact_acme (t : ℚ) (ht : t ≤ 1) :
    match_company "acme" [{ name := "acme" }] t = [⟨{ name := "acme" }, 1⟩] := by
  unfold match_company matchCompanyPre
  rw [if_neg (by decide)]
  have hn : normalize_company_name "acme" = "acme" := by decide
  simp only [List.filterMap_cons, List.filterMap_nil, hn, companyScore_acme, round3_one]
  rw [if_neg (by decide), if_pos ht]
  rfl

theorem match_person_exact_acme (t : ℚ) (ht : t ≤ 1) :
    match_person "acme" [{ name := "acme" }] t = [⟨{ name := "acme" }, 1⟩] := by
  unfold match_person matchPersonPre
  rw [if_neg (by decide)]
  have hn : normalize_person_name "acme" = "acme" := by decide
  have hsc : personScore "acme" "acme" = 1 := by
    unfold personScore
    rw [if_pos rfl]
  simp only [List.filterMap_cons, List.filterMap_nil, hn, hsc, round3_one]
  rw [if_neg (by decide), if_pos ht]
  rfl

theorem similarity_main_st : similarity "main st" "main st" = 1 := by
  unfold similarity
  rw [if_neg (by decide)]
  unfold pyRatio
  rw [if_neg (by decide)]
  have hM : matchTotal "main st".data "main st".data = 7 := by decide
  rw [hM]
  norm_num

theorem match_address_exact_main (t : ℚ) (ht : t ≤ 1) :
    match_address "main st" [{ address := "main st" }] t = [⟨{ address := "main st" }, 1⟩] := by
  unfold match_address matchAddressPre
  rw [if_neg (by decide)]
  have hn : normalize_address "main st" = "main st" := by decide
  have hsc : addressScore "main st" "main st" = 1 := by
    unfold addressScore
    have hsplit : addrNumSplit "main st" = none := by decide
    rw [hsplit]
    exact similarity_main_st
  simp only [List.filterMap_cons, List.filterMap_nil, hn, hsc, round3_one]
  rw [if_neg (by decide), if_pos ht]
  rfl

/-- C10: every reported `_match_score` is the raw computed score rounded to three
decimals while the threshold filter compares the unrounded score, and any raw
score in `[0.9995, 1]` is reported as exactly `1.0` (in particular scores below
`1` can be reported as `1.0`). -/
theorem claim_C10_scores_rounded_filter_unrounded
    (qc : String) (cs : List Candidate) (t : ℚ) (e : MatchEntry Candidate)
    (he : e ∈ match_company qc cs t)
    (qp : String) (cs2 : List Candidate) (t2 : ℚ) (e2 : MatchEntry Candidate)
    (he2 : e2 ∈ match_person qp cs2 t2)
    (qa : String) (as3 : List AddressCandidate) (t3 : ℚ) (e3 : MatchEntry AddressCandidate)
    (he3 : e3 ∈ match_address qa as3 t3)
    (s : ℚ) (hs1 : 1999 / 2000 ≤ s) (hs2 : s ≤ 1) :
    (∃ c ∈ cs, e.cand = c ∧
      t ≤ companyScore (normalize_company_name qc) (normalize_company_name c.name) ∧
      e.matchScore =
        round3 (companyScore (normalize_company_name qc) (normalize_company_name c.name))) ∧
    (∃ c ∈ cs2, e2.cand = c ∧
      t2 ≤ personScore (normalize_person_name qp) (normalize_person_name c.name) ∧
      e2.matchScore =
        round3 (personScore (normalize_person_name qp) (normalize_person_name c.name))) ∧
    (∃ c ∈ as3, e3.cand = c ∧
      t3 ≤ addressScore (normalize_address qa) (normalize_address c.address) ∧
      e3.matchScore =
        round3 (addressScore (normalize_address qa) (normalize_address c.address))) ∧
    round3 s = 1 ∧
    (∃ s2 : ℚ, s2 < 1 ∧ round3 s2 = 1) :=
  ⟨mem_match_company he, mem_match_person he2, mem_match_address he3,
    round3_eq_one_of s hs1 hs2,
    ⟨2499 / 2500, by norm_num, round3_eq_one_of (2499 / 2500) (by norm_num) (by norm_num)⟩⟩

theorem claim_C10_witness :
    (⟨{ name := "acme" }, 1⟩ ∈ match_company "acme" [{ name := "acme" }] 1) ∧
    (⟨{ name := "acme" }, 1⟩ ∈ match_person "acme" [{ name := "acme" }] 1) ∧
    (⟨{ address := "main st" }, 1⟩ ∈ match_address "main st" [{ address := "main st" }] 1) ∧
    (1999 / 2000 : ℚ) ≤ 1 ∧ (1 : ℚ) ≤ 1 ∧
    ((∃ c ∈ [{ name := "acme" }],
        (⟨{ name := "acme" }, 1⟩ : MatchEntry Candidate).cand = c ∧
        1 ≤ companyScore (normalize_company_name "acme") (normalize_company_name c.name) ∧
        (⟨{ name := "acme" }, 1⟩ : MatchEntry Candidate).matchScore =
          round3 (companyScore (normalize_company_name "acme")
            (normalize_company_name c.name))) ∧
      (∃ c ∈ [{ name := "acme" }],
        (⟨{ name := "acme" }, 1⟩ : MatchEntry Candidate).cand = c ∧
        1 ≤ personScore (normalize_person_name "acme") (normalize_person_name c.name) ∧
        (⟨{ name := "acme" }, 1⟩ : MatchEntry Candidate).matchScore =
          round3 (personScore (normalize_person_name "acme")
            (normalize_person_name c.name))) ∧
      (∃ c ∈ [{ address := "main st" }],
        (⟨{ address := "main st" }, 1⟩ : MatchEntry AddressCandidate).cand = c ∧
        1 ≤ addressScore (normalize_address "main st") (normalize_address c.address) ∧
        (⟨{ address := "main st" }, 1⟩ : MatchEntry AddressCandidate).matchScore =
          round3 (addressScore (normalize_address "main st")
            (normalize_address c.address))) ∧
      round3 1 = 1 ∧
      (∃ s2 : ℚ, s2 < 1 ∧ round3 s2 = 1)) := by
  have h1 : (⟨{ name := "acme" }, 1⟩ : MatchEntry Candidate) ∈
      match_company "acme" [{ name := "acme" }] 1 := by
    simp [match_company_exact_acme 1 le_rfl]
  have h2 : (⟨{ name := "acme" }, 1⟩ : MatchEntry Candidate) ∈
      match_person "acme" [{ name := "acme" }] 1 := by
    simp [match_person_exact_acme 1 le_rfl]
  have h3 : (⟨{ address := "main st" }, 1⟩ : MatchEntry AddressCandidate) ∈
      match_address "main st" [{ address := "main st" }] 1 := by
    simp [match_address_exact_main 1 le_rfl]
  exact ⟨h1, h2, h3, by norm_num, le_rfl,
    claim_C10_scores_rounded_filter_unrounded "acme" [{ name := "acme" }] 1 _ h1
      "acme" [{ name := "acme" }] 1 _ h2
      "main st" [{ address := "main st" }] 1 _ h3
      1 (by norm_num) le_rfl⟩

/-- C1 counterexample: the difflib ratio is not symmetric. For "cabc" vs "bcac"
the greedy longest-match decomposition finds 3 matched characters one way (blocks
"ca" and "c") but only 2 the other way (block "bc" alone), giving ratios 0.75
versus 0.5. -/
theorem claim_C1_counterexample :
    similarity "cabc" "bcac" ≠ similarity "bcac" "cabc" := by
  have h1 : similarity "cabc" "bcac" = 3 / 4 := by
    unfold similarity
    rw [if_neg (by decide)]
    unfold pyRatio
    rw [if_neg (by decide)]
    have hM : matchTotal "cabc".data "bcac".data = 3 := by decide
    rw [hM]
    norm_num
  have h2 : similarity "bcac" "cabc" = 1 / 2 := by
    unfold similarity
    rw [if_neg (by decide)]
    unfold pyRatio
    rw [if_neg (by decide)]
    have hM : matchTotal "bcac".data "cabc".data = 2 := by decide
    rw [hM]
    norm_num
  rw [h1, h2]
  norm_num

/-- C1 amended: `similarity` is not symmetric in general; symmetry does hold in
the degenerate cases — equal arguments, or an empty argument (where both
directions return 0). -/
theorem claim_C1_amended_symmetry_restricted (a b : String)
    (h : a = b ∨ a = "" ∨ b = "") : similarity a b = similarity b a := by
  rcases h with rfl | h | h
  · rfl
  · unfold similarity
    rw [if_pos (Or.inl h), if_pos (Or.inr h)]
  · unfold similarity
    rw [if_pos (Or.inr h), if_pos (Or.inl h)]

theorem claim_C1_witness :
    (("ab" : String) = "ab" ∨ ("ab" : String) = "" ∨ ("ab" : String) = "") ∧
    similarity "ab" "ab" = similarity "ab" "ab" :=
  ⟨Or.inl rfl, claim_C1_amended_symmetry_restricted "ab" "ab" (Or.inl rfl)⟩

/-- C9: `cross_reference` on three empty collections returns an empty link list
and zero counts; the embedding is a total function, so no exception path exists
on this input. -/
theorem claim_C9_empty_inputs (t : ℚ) :
    cross_reference [] [] [] t =
      { entity_links := [], registry_companies := 0, transfer_companies := 0,
        permit_companies := 0, total_links_found := 0 } := rfl

theorem addNameUnique_nodup (l : List String) (x : String) (h : l.Nodup) :
    (addNameUnique l x).Nodup := by
  unfold addNameUnique
  split
  · exact h
  · rename_i hx
    simp [List.nodup_append, h, hx]

theorem mem_addNameUnique (l : List String) (x n : String) :
    n ∈ addNameUnique l x ↔ n ∈ l ∨ n = x := by
  unfold addNameUnique
  split
  · rename_i hx
    constructor
    · exact Or.inl
    · rintro (h | rfl)
      · exact h
      · exact hx
  · simp

theorem transferPoolStep_nodup (acc : List String) (t : TransferRecord)
    (h : acc.Nodup) : (transferPoolStep acc t).Nodup := by
  unfold transferPoolStep
  split
  · split
    · exact addNameUnique_nodup _ _ (addNameUnique_nodup _ _ h)
    · exact addNameUnique_nodup _ _ h
  · split
    · exact addNameUnique_nodup _ _ h
    · exact h

theorem mem_transferPoolStep (acc : List String) (t : TransferRecord) (n : String) :
    n ∈ transferPoolStep acc t ↔
      n ∈ acc ∨ (n = t.vendor ∧ t.vendor ≠ "") ∨ (n = t.purchaser ∧ t.purchaser ≠ "") := by
  unfold transferPoolStep
  split
  · rename_i hp
    split
    · rename_i hv
      simp only [mem_addNameUnique]
      constructor
      · rintro ((h | rfl) | rfl)
        · exact Or.inl h
        · exact Or.inr (Or.inl ⟨rfl, hv⟩)
        · exact Or.inr (Or.inr ⟨rfl, hp⟩)
      · rintro (h | ⟨rfl, -⟩ | ⟨rfl, -⟩)
        · exact Or.inl (Or.inl h)
        · exact Or.inl (Or.inr rfl)
        · exact Or.inr rfl
    · rename_i hv
      push_neg at hv
      simp only [mem_addNameUnique]
      constructor
      · rintro (h | rfl)
        · exact Or.inl h
        · exact Or.inr (Or.inr ⟨rfl, hp⟩)
      · rintro (h | ⟨rfl, hc⟩ | ⟨rfl, -⟩)
        · exact Or.inl h
        · exact absurd hv hc
        · exact Or.inr rfl
  · rename_i hp
    push_neg at hp
    split
    · rename_i hv
      simp only [mem_addNameUnique]
      constructor
      · rintro (h | rfl)
        · exact Or.inl h
        · exact Or.inr (Or.inl ⟨rfl, hv⟩)
      · rintro (h | ⟨rfl, -⟩ | ⟨rfl, hc⟩)
        · exact Or.inl h
        · exact Or.inr rfl
        · exact absurd hp hc
    · rename_i hv
      push_neg at hv
      constructor
      · exact Or.inl
      · rintro (h | ⟨rfl, hc⟩ | ⟨rfl, hc⟩)
        · exact h
        · exact absurd hv hc
        · exact absurd hp hc

theorem transferNamePool_aux (trs : List TransferRecord) :
    ∀ acc : List String, acc.Nodup →
      (List.foldl transferPoolStep acc trs).Nodup ∧
      ∀ n, n ∈ List.foldl transferPoolStep acc trs ↔
        n ∈ acc ∨ ∃ r ∈ trs,
          (n = r.vendor ∧ r.vendor ≠ "") ∨ (n = r.purchaser ∧ r.purchaser ≠ "") := by
  induction trs with
  | nil =>
    intro acc h
    simpa using h
  | cons t ts ih =>
    intro acc h
    rw [List.foldl_cons]
    obtain ⟨hnd, hmem⟩ := ih (transferPoolStep acc t) (transferPoolStep_nodup acc t h)
    refine ⟨hnd, fun n => ?_⟩
    rw [hmem n, mem_transferPoolStep]
    simp only [List.mem_cons]
    constructor
    · rintro ((h1 | h1 | h1) | ⟨r, hr, h1⟩)
      · exact Or.inl h1
      · exact Or.inr ⟨t, Or.inl rfl, Or.inl h1⟩
      · exact Or.inr ⟨t, Or.inl rfl, Or.inr h1⟩
      · exact Or.inr ⟨r, Or.inr hr, h1⟩
    · rintro (h1 | ⟨r, rfl | hr, h1⟩)
      · exact Or.inl (Or.inl h1)
      · exact Or.inl (Or.inr h1)
      · exact Or.inr ⟨r, hr, h1⟩

theorem permitNamePool_aux (pms : List PermitRecord) :
    ∀ acc : List String, acc.Nodup →
      (List.foldl permitPoolStep acc pms).Nodup ∧
      ∀ n, n ∈ List.foldl permitPoolStep acc pms ↔
        n ∈ acc ∨ ∃ r ∈ pms, n = r.owner ∧ r.owner ≠ "" := by
  induction pms with
  | nil =>
    intro acc h
    simpa using h
  | cons p ps ih =>
    intro acc h
    rw [List.foldl_cons]
    have hstep : (permitPoolStep acc p).Nodup := by
      unfold permitPoolStep
      split
      · exact addNameUnique_nodup _ _ h
      · exact h
    obtain ⟨hnd, hmem⟩ := ih (permitPoolStep acc p) hstep
    refine ⟨hnd, fun n => ?_⟩
    rw [hmem n]
    have hstepm : n ∈ permitPoolStep acc p ↔ n ∈ acc ∨ (n = p.owner ∧ p.owner ≠ "") := by
      unfold permitPoolStep
      split
      · rename_i hp
        rw [mem_addNameUnique]
        constructor
        · rintro (h1 | rfl)
          · exact Or.inl h1
          · exact Or.inr ⟨rfl, hp⟩
        · rintro (h1 | ⟨rfl, -⟩)
          · exact Or.inl h1
          · exact Or.inr rfl
      · rename_i hp
        push_neg at hp
        constructor
        · exact Or.inl
        · rintro (h1 | ⟨rfl, hc⟩)
          · exact h1
          · exact absurd hp hc
    rw [hstepm]
    simp only [List.mem_cons]
    constructor
    · rintro ((h1 | h1) | ⟨r, hr, h1⟩)
      · exact Or.inl h1
      · exact Or.inr ⟨p, Or.inl rfl, h1⟩
      · exact Or.inr ⟨r, Or.inr hr, h1⟩
    · rintro (h1 | ⟨r, rfl | hr, h1⟩)
      · exact Or.inl (Or.inl h1)
      · exact Or.inl (Or.inr h1)
      · exact Or.inr ⟨r, hr, h1⟩

/-- C5 counterexample: registry companies are NOT deduplicated. Two registry
records with the same entity name produce a `registry_companies` count of 2,
although only 1 distinct company name was seen in that source. -/
theorem claim_C5_counterexample :
    (cross_reference [{ entity_name := "Acme Ltd" }, { entity_name := "Acme Ltd" }] [] []
      (4 / 5)).registry_companies = 2 ∧
    (([{ entity_name := "Acme Ltd" }, { entity_name := "Acme Ltd" }] :
        List RegistryRecord).map (fun r => r.entity_name)).dedup.length = 1 := by
  constructor
  · rfl
  · decide

/-- C5 amended: the transfer and permit pools contain exactly one entry per
distinct non-empty vendor/purchaser (respectively owner) name, and the
`transfer_companies` and `permit_companies` fields are those distinct counts;
the `registry_companies` field however is the number of registry records (one
pool entry per record, with no deduplication across records). -/
theorem claim_C5_amended_pool_dedup (regs : List RegistryRecord)
    (trs : List TransferRecord) (pms : List PermitRecord) (t : ℚ) :
    (cross_reference regs trs pms t).registry_companies = regs.length ∧
    (cross_reference regs trs pms t).transfer_companies = (transferNamePool trs).length ∧
    (cross_reference regs trs pms t).permit_companies = (permitNamePool pms).length ∧
    ((transferCandidatePool trs).map (fun c => c.name)) = transferNamePool trs ∧
    ((permitCandidatePool pms).map (fun c => c.name)) = permitNamePool pms ∧
    (transferNamePool trs).Nodup ∧ (permitNamePool pms).Nodup ∧
    (∀ n, n ∈ transferNamePool trs ↔
      n ≠ "" ∧ ∃ r ∈ trs, r.vendor = n ∨ r.purchaser = n) ∧
    (∀ n, n ∈ permitNamePool pms ↔ n ≠ "" ∧ ∃ r ∈ pms, r.owner = n) := by
  obtain ⟨htn, htm⟩ := transferNamePool_aux trs [] List.nodup_nil
  obtain ⟨hpn, hpm⟩ := permitNamePool_aux pms [] List.nodup_nil
  refine ⟨?_, ?_, ?_, ?_, ?_, htn, hpn, ?_, ?_⟩
  · simp [cross_reference, registryCompanyPool]
  · simp [cross_reference, transferCandidatePool]
  · simp [cross_reference, permitCandidatePool]
  · rw [transferCandidatePool, List.map_map]
    exact List.map_id _
  · rw [permitCandidatePool, List.map_map]
    exact List.map_id _
  · intro n
    rw [transferNamePool, htm n]
    simp only [List.not_mem_nil, false_or]
    constructor
    · rintro ⟨r, hr, ⟨rfl, hv⟩ | ⟨rfl, hp⟩⟩
      · exact ⟨hv, r, hr, Or.inl rfl⟩
      · exact ⟨hp, r, hr, Or.inr rfl⟩
    · rintro ⟨hne, r, hr, rfl | rfl⟩
      · exact ⟨r, hr, Or.inl ⟨rfl, hne⟩⟩
      · exact ⟨r, hr, Or.inr ⟨rfl, hne⟩⟩
  · intro n
    rw [permitNamePool, hpm n]
    simp only [List.not_mem_nil, false_or]
    constructor
    · rintro ⟨r, hr, rfl, hv⟩
      · exact ⟨hv, r, hr, rfl⟩
    · rintro ⟨hne, r, hr, rfl⟩
      · exact ⟨r, hr, rfl, hne⟩


theorem toLower_eq_ite (c : Char) :
    Char.toLower c = if c.toNat ≥ 65 ∧ c.toNat ≤ 90 then Char.ofNat (c.toNat + 32) else c := rfl

theorem toLower_toLower (c : Char) : (Char.toLower c).toLower = Char.toLower c := by
  by_cases h : c.toNat ≥ 65 ∧ c.toNat ≤ 90
  · rw [toLower_eq_ite c, if_pos h]
    obtain ⟨h2, h3⟩ := h
    generalize c.toNat = n at h2 h3
    interval_cases n <;> decide
  · rw [toLower_eq_ite c, if_neg h, toLower_eq_ite c, if_neg h]

theorem mem_pyLower {c : Char} {l : List Char} (h : c ∈ pyLower l) :
    Char.toLower c = c := by
  rcases List.mem_map.mp h with ⟨x, -, rfl⟩
  exact toLower_toLower x

theorem mem_punctToSpace {c : Char} {l : List Char} (h : c ∈ punctToSpace l) :
    isNamePunct c = false := by
  rcases List.mem_map.mp h with ⟨x, -, rfl⟩
  by_cases hx : isNamePunct x = true
  · show isNamePunct (if isNamePunct x then ' ' else x) = false
    rw [if_pos hx]
    decide
  · show isNamePunct (if isNamePunct x then ' ' else x) = false
    rw [if_neg hx]
    exact Bool.eq_false_iff.mpr hx

theorem dropTrailingWs_front (l : List Char) : dropTrailingWs l <+: l := by
  induction l with
  | nil => exact ⟨[], rfl⟩
  | cons c cs ih =>
    rw [dropTrailingWs]
    split
    · exact ⟨c :: cs, rfl⟩
    · obtain ⟨t, ht⟩ := ih
      exact ⟨t, by rw [List.cons_append, ht]⟩

theorem mem_pyStrip {c : Char} {l : List Char} (h : c ∈ pyStrip l) : c ∈ l := by
  unfold pyStrip at h
  exact (List.dropWhile_suffix pyWs).subset ((dropTrailingWs_front _).subset h)

theorem mem_collapseWs {c : Char} {l : List Char} (h : c ∈ collapseWs l) :
    c ∈ l ∨ c = ' ' := by
  induction l with
  | nil => simp [collapseWs] at h
  | cons d ds ih =>
    rw [collapseWs] at h
    split at h
    · split at h
      · rcases ih h with h | h
        · exact Or.inl (List.mem_cons_of_mem d h)
        · exact Or.inr h
      · rcases List.mem_cons.mp h with rfl | h
        · exact Or.inr rfl
        · rcases ih h with h | h
          · exact Or.inl (List.mem_cons_of_mem d h)
          · exact Or.inr h
    · rcases List.mem_cons.mp h with rfl | h
      · exact Or.inl (List.mem_cons_self _ _)
      · rcases ih h with h | h
        · exact Or.inl (List.mem_cons_of_mem d h)
        · exact Or.inr h

theorem rsrPair_mem (l : List Char) :
    (∀ c ∈ (rsrPair l).1, c ∈ l) ∧ (∀ c ∈ (rsrPair l).2, c ∈ l) := by
  induction l with
  | nil => simp [rsrPair]
  | cons d ds ih =>
    rw [rsrPair]
    split
    · refine ⟨fun c hc => ?_, fun c hc => List.mem_cons_of_mem d (ih.2 c hc)⟩
      rcases List.mem_cons.mp hc with rfl | hc
      · exact List.mem_cons_self _ _
      · exact List.mem_cons_of_mem d (ih.1 c hc)
    · refine ⟨fun c hc => absurd hc (List.not_mem_nil c), fun c hc => ?_⟩
      rcases List.mem_cons.mp hc with rfl | hc
      · exact List.mem_cons_self _ _
      · rcases List.mem_append.mp hc with hc | hc
        · split at hc
          · exact absurd hc (List.not_mem_nil c)
          · exact List.mem_cons_of_mem d (ih.1 c hc)
        · exact List.mem_cons_of_mem d (ih.2 c hc)

theorem mem_removeSuffixRuns {c : Char} {l : List Char} (h : c ∈ removeSuffixRuns l) :
    c ∈ l := by
  unfold removeSuffixRuns at h
  rcases List.mem_append.mp h with h | h
  · split at h
    · exact absurd h (List.not_mem_nil c)
    · exact (rsrPair_mem l).1 c h
  · exact (rsrPair_mem l).2 c h

theorem head_dropWhile_not {p : Char → Bool} {l : List Char} {c : Char}
    (h : (l.dropWhile p).head? = some c) : p c = false := by
  induction l with
  | nil => simp [List.dropWhile] at h
  | cons d ds ih =>
    rw [List.dropWhile_cons] at h
    split at h
    · exact ih h
    · rename_i hd
      rw [List.head?_cons, Option.some_inj] at h
      subst h
      exact Bool.eq_false_iff.mpr hd

theorem dropWhile_eq_self_of_head {p : Char → Bool} {l : List Char}
    (h : ∀ c ∈ l.head?, p c = false) : l.dropWhile p = l := by
  cases l with
  | nil => rfl
  | cons d ds =>
    rw [List.dropWhile_cons, if_neg]
    have := h d (by simp)
    simp [this]

theorem dropTrailingWs_idem (l : List Char) :
    dropTrailingWs (dropTrailingWs l) = dropTrailingWs l := by
  induction l with
  | nil => rfl
  | cons c cs ih =>
    rw [dropTrailingWs]
    split
    · rfl
    · rename_i hc
      rw [dropTrailingWs, ih, if_neg hc]

theorem head_dropTrailingWs {l : List Char} {c : Char}
    (h : (dropTrailingWs l).head? = some c) : l.head? = some c := by
  cases l with
  | nil => simp [dropTrailingWs] at h
  | cons d ds =>
    rw [dropTrailingWs] at h
    split at h
    · simp at h
    · rw [List.head?_cons, Option.some_inj] at h
      subst h
      rfl

theorem pyStrip_idem (l : List Char) : pyStrip (pyStrip l) = pyStrip l := by
  unfold pyStrip
  have h1 : (dropTrailingWs (l.dropWhile pyWs)).dropWhile pyWs =
      dropTrailingWs (l.dropWhile pyWs) := by
    apply dropWhile_eq_self_of_head
    intro c hc
    simp only [Option.mem_def] at hc
    exact head_dropWhile_not (head_dropTrailingWs hc)
  rw [h1, dropTrailingWs_idem]

/-- After `collapseWs`, every whitespace character is a single space character
with no two adjacent whitespace characters. -/
def WsSingle (l : List Char) : Prop :=
  (∀ c ∈ l, pyWs c = true → c = ' ') ∧
  List.Chain' (fun a b => ¬(pyWs a = true ∧ pyWs b = true)) l

theorem pyWs_cases {c : Char} (h : pyWs c = true) :
    c = ' ' ∨ c = '\t' ∨ c = '\n' ∨ c = '\r' ∨ c = '\x0b' ∨ c = '\x0c' := by
  unfold pyWs at h
  simp only [Bool.or_eq_true, beq_iff_eq] at h
  tauto

theorem pyWs_not_word {c : Char} (h : pyWs c = true) : isWordChar c = false := by
  rcases pyWs_cases h with rfl | rfl | rfl | rfl | rfl | rfl <;> decide

theorem collapseWs_wsSingle (l : List Char) : WsSingle (collapseWs l) := by
  induction l with
  | nil => exact ⟨fun c hc => absurd hc (List.not_mem_nil c), List.chain'_nil⟩
  | cons c cs ih =>
    obtain ⟨ihc, ihp⟩ := ih
    rw [collapseWs]
    split
    · split
      · exact ⟨ihc, ihp⟩
      · rename_i hhead
        constructor
        · intro d hd hwd
          rcases List.mem_cons.mp hd with rfl | hd
          · rfl
          · exact ihc d hd hwd
        · rw [List.chain'_cons']
          refine ⟨?_, ihp⟩
          intro y hy
          rintro ⟨-, hwy⟩
          have hmem : y ∈ collapseWs cs := List.mem_of_mem_head? hy
          have hsp : y = ' ' := ihc y hmem hwy
          apply hhead
          rw [Option.mem_def] at hy
          rw [hy, hsp]
          simp
    · rename_i hwc
      constructor
      · intro d hd hwd
        rcases List.mem_cons.mp hd with rfl | hd
        · exact absurd hwd hwc
        · exact ihc d hd hwd
      · rw [List.chain'_cons']
        refine ⟨?_, ihp⟩
        intro y hy
        rintro ⟨hwc2, -⟩
        exact hwc hwc2

theorem collapseWs_eq_self {l : List Char} (h : WsSingle l) : collapseWs l = l := by
  induction l with
  | nil => rfl
  | cons c cs ih =>
    obtain ⟨hc, hp⟩ := h
    have hcs : WsSingle cs :=
      ⟨fun d hd => hc d (List.mem_cons_of_mem c hd), (List.chain'_cons'.mp hp).2⟩
    rw [collapseWs]
    split
    · rename_i hwc
      have hcsp : c = ' ' := hc c (List.mem_cons_self _ _) hwc
      have hhead : ¬((collapseWs cs).head? == some ' ') = true := by
        rw [ih hcs]
        cases cs with
        | nil => simp
        | cons d ds =>
          have hrel := (List.chain'_cons'.mp hp).1 d (by simp)
          have hd : pyWs d = false := by
            rcases Bool.eq_false_or_eq_true (pyWs d) with hb | hb
            · exact absurd ⟨hwc, hb⟩ hrel
            · exact hb
          simp only [List.head?_cons, beq_iff_eq, Option.some_inj]
          intro hds
          rw [hds] at hd
          exact absurd hd (by decide)
      rw [if_neg hhead, ih hcs, hcsp]
    · rw [ih hcs]

theorem wsSingle_of_front {l m : List Char} (h : WsSingle l) (hp : m <+: l) :
    WsSingle m := by
  refine ⟨fun c hc hw => h.1 c (hp.subset hc) hw, ?_⟩
  obtain ⟨t, rfl⟩ := hp
  exact h.2.left_of_append

theorem wsSingle_of_suffix {l m : List Char} (h : WsSingle l) (hp : m <:+ l) :
    WsSingle m :=
  ⟨fun c hc hw => h.1 c (hp.subset hc) hw, h.2.suffix hp⟩

theorem pyStrip_wsSingle {l : List Char} (h : WsSingle l) : WsSingle (pyStrip l) :=
  wsSingle_of_front (wsSingle_of_suffix h (List.dropWhile_suffix pyWs))
    (dropTrailingWs_front _)

theorem rsrPair_fst (l : List Char) : (rsrPair l).1 = l.takeWhile isWordChar := by
  induction l with
  | nil => rfl
  | cons c cs ih =>
    rw [rsrPair, List.takeWhile_cons]
    split
    · simpa using ih
    · rfl

theorem wordRunsAux_fst (l : List Char) : (wordRunsAux l).1 = l.takeWhile isWordChar := by
  induction l with
  | nil => rfl
  | cons c cs ih =>
    rw [wordRunsAux, List.takeWhile_cons]
    split
    · simpa using ih
    · rfl

theorem wordRuns_cons_not_word {c : Char} (Z : List Char) (h : isWordChar c = false) :
    wordRuns (c :: Z) = wordRuns Z := by
  have ha : wordRunsAux (c :: Z) =
      ([], if (wordRunsAux Z).1.isEmpty then (wordRunsAux Z).2
        else (wordRunsAux Z).1 :: (wordRunsAux Z).2) := by
    rw [wordRunsAux, if_neg (by simp [h])]
  rw [wordRuns, ha]
  rfl

theorem wordRunsAux_append_word (w r2 : List Char) (hw : ∀ c ∈ w, isWordChar c = true)
    (hr : (wordRunsAux r2).1 = []) :
    wordRunsAux (w ++ r2) = (w, (wordRunsAux r2).2) := by
  induction w with
  | nil =>
    rw [List.nil_append]
    exact Prod.ext hr rfl
  | cons a w ih =>
    rw [List.cons_append, wordRunsAux, if_pos (hw a (List.mem_cons_self _ _))]
    rw [ih (fun c hc => hw c (List.mem_cons_of_mem a hc))]

theorem wordRuns_of_word_append (w r2 : List Char) (hw : ∀ c ∈ w, isWordChar c = true)
    (hne : w ≠ []) (hr : (wordRunsAux r2).1 = []) :
    wordRuns (w ++ r2) = w :: wordRuns r2 := by
  rw [wordRuns, wordRunsAux_append_word w r2 hw hr, wordRuns, hr]
  simp [List.isEmpty_iff, hne]

theorem rsrPair_snd_spec (l : List Char) :
    (wordRunsAux (rsrPair l).2).1 = [] ∧
    wordRuns ((rsrPair l).2) =
      ((wordRunsAux l).2).filter (fun r => decide (r ∉ companySuffixTokens)) := by
  induction l with
  | nil => exact ⟨rfl, rfl⟩
  | cons c cs ih =>
    obtain ⟨ih1, ih2⟩ := ih
    by_cases hc : isWordChar c = true
    · have e1 : (rsrPair (c :: cs)).2 = (rsrPair cs).2 := by
        rw [rsrPair, if_pos hc]
      have e2 : (wordRunsAux (c :: cs)).2 = (wordRunsAux cs).2 := by
        rw [wordRunsAux, if_pos hc]
      rw [e1, e2]
      exact ⟨ih1, ih2⟩
    · have hcF : isWordChar c = false := Bool.eq_false_iff.mpr hc
      have hr1 : (rsrPair cs).1 = (wordRunsAux cs).1 := by
        rw [rsrPair_fst, wordRunsAux_fst]
      have e1 : (rsrPair (c :: cs)).2 =
          c :: ((if (rsrPair cs).1 ∈ companySuffixTokens then [] else (rsrPair cs).1) ++
            (rsrPair cs).2) := by
        rw [rsrPair, if_neg hc]
      have e2 : (wordRunsAux (c :: cs)).2 =
          if (wordRunsAux cs).1.isEmpty then (wordRunsAux cs).2
          else (wordRunsAux cs).1 :: (wordRunsAux cs).2 := by
        rw [wordRunsAux, if_neg hc]
      constructor
      · rw [e1, wordRunsAux_fst, List.takeWhile_cons, if_neg hc]
      · rw [e1, wordRuns_cons_not_word _ hcF, e2]
        by_cases he : (rsrPair cs).1 = []
        · rw [he, ← hr1, he]
          have hemit : (if ([] : List Char) ∈ companySuffixTokens then ([] : List Char)
              else []) = [] := by
            split <;> rfl
          rw [hemit, List.nil_append, ih2]
          simp [List.isEmpty_iff]
        · have hne2 : ¬((wordRunsAux cs).1.isEmpty = true) := by
            rw [← hr1]
            simp [List.isEmpty_iff, he]
          rw [if_neg hne2, List.filter_cons, ← hr1]
          by_cases htok : (rsrPair cs).1 ∈ companySuffixTokens
          · rw [if_pos htok, List.nil_append, ih2]
            have hdec : (decide ((rsrPair cs).1 ∉ companySuffixTokens)) = false := by
              simp [htok]
            rw [hdec]
            simp
          · rw [if_neg htok]
            have hw : ∀ d ∈ (rsrPair cs).1, isWordChar d = true := by
              intro d hd
              rw [rsrPair_fst] at hd
              exact List.mem_takeWhile_imp hd
            rw [wordRuns_of_word_append _ _ hw he ih1, ih2]
            have hdec : (decide ((rsrPair cs).1 ∉ companySuffixTokens)) = true := by
              simp [htok]
            rw [hdec]
            simp

theorem wordRuns_removeSuffixRuns (l : List Char) :
    wordRuns (removeSuffixRuns l) =
      (wordRuns l).filter (fun r => decide (r ∉ companySuffixTokens)) := by
  obtain ⟨h1, h2⟩ := rsrPair_snd_spec l
  unfold removeSuffixRuns
  have hr1 : (rsrPair l).1 = (wordRunsAux l).1 := by
    rw [rsrPair_fst, wordRunsAux_fst]
  have hwr : wordRuns l = if (wordRunsAux l).1.isEmpty then (wordRunsAux l).2
      else (wordRunsAux l).1 :: (wordRunsAux l).2 := rfl
  by_cases he : (rsrPair l).1 = []
  · rw [he]
    have hemit : (if ([] : List Char) ∈ companySuffixTokens then ([] : List Char)
        else []) = [] := by
      split <;> rfl
    rw [hemit, List.nil_append, h2, hwr, ← hr1, he]
    simp [List.isEmpty_iff]
  · have hne2 : ¬((wordRunsAux l).1.isEmpty = true) := by
      rw [← hr1]
      simp [List.isEmpty_iff, he]
    rw [hwr, if_neg hne2, List.filter_cons, ← hr1]
    by_cases htok : (rsrPair l).1 ∈ companySuffixTokens
    · rw [if_pos htok, List.nil_append, h2]
      have hdec : (decide ((rsrPair l).1 ∉ companySuffixTokens)) = false := by
        simp [htok]
      rw [hdec]
      simp
    · rw [if_neg htok]
      have hw : ∀ d ∈ (rsrPair l).1, isWordChar d = true := by
        intro d hd
        rw [rsrPair_fst] at hd
        exact List.mem_takeWhile_imp hd
      rw [wordRuns_of_word_append _ _ hw he h1, h2]
      have hdec : (decide ((rsrPair l).1 ∉ companySuffixTokens)) = true := by
        simp [htok]
      rw [hdec]
      simp

theorem rsrPair_snd_eq_dropWhile (l : List Char)
    (h : ∀ r ∈ (wordRunsAux l).2, r ∉ companySuffixTokens) :
    (rsrPair l).2 = l.dropWhile isWordChar := by
  induction l with
  | nil => rfl
  | cons c cs ih =>
    by_cases hc : isWordChar c = true
    · have e1 : (rsrPair (c :: cs)).2 = (rsrPair cs).2 := by
        rw [rsrPair, if_pos hc]
      have e2 : (wordRunsAux (c :: cs)).2 = (wordRunsAux cs).2 := by
        rw [wordRunsAux, if_pos hc]
      rw [e1, List.dropWhile_cons, if_pos hc]
      exact ih (by rw [← e2]; exact h)
    · have hr1 : (rsrPair cs).1 = (wordRunsAux cs).1 := by
        rw [rsrPair_fst, wordRunsAux_fst]
      have e2 : (wordRunsAux (c :: cs)).2 =
          if (wordRunsAux cs).1.isEmpty then (wordRunsAux cs).2
          else (wordRunsAux cs).1 :: (wordRunsAux cs).2 := by
        rw [wordRunsAux, if_neg hc]
      have hcs : ∀ r ∈ (wordRunsAux cs).2, r ∉ companySuffixTokens := by
        intro r hr
        apply h
        rw [e2]
        split
        · exact hr
        · exact List.mem_cons_of_mem _ hr
      have hemit : (if (rsrPair cs).1 ∈ companySuffixTokens then [] else (rsrPair cs).1) =
          (rsrPair cs).1 := by
        split
        · rename_i htok
          by_cases he : (rsrPair cs).1 = []
          · rw [he]
          · exfalso
            apply h ((rsrPair cs).1)
            · rw [e2, ← hr1]
              rw [if_neg (by simp [List.isEmpty_iff, he])]
              exact List.mem_cons_self _ _
            · exact htok
        · rfl
      rw [rsrPair, if_neg hc]
      show c :: ((if (rsrPair cs).1 ∈ companySuffixTokens then [] else (rsrPair cs).1) ++
        (rsrPair cs).2) = List.dropWhile isWordChar (c :: cs)
      rw [hemit, ih hcs, rsrPair_fst, List.takeWhile_append_dropWhile,
        List.dropWhile_cons, if_neg hc]

theorem removeSuffixRuns_eq_self (l : List Char)
    (h : ∀ r ∈ wordRuns l, r ∉ companySuffixTokens) :
    removeSuffixRuns l = l := by
  have hr1 : (rsrPair l).1 = (wordRunsAux l).1 := by
    rw [rsrPair_fst, wordRunsAux_fst]
  have hwr : wordRuns l = if (wordRunsAux l).1.isEmpty then (wordRunsAux l).2
      else (wordRunsAux l).1 :: (wordRunsAux l).2 := rfl
  have h2 : ∀ r ∈ (wordRunsAux l).2, r ∉ companySuffixTokens := by
    intro r hr
    apply h
    rw [hwr]
    split
    · exact hr
    · exact List.mem_cons_of_mem _ hr
  have hemit : (if (rsrPair l).1 ∈ companySuffixTokens then [] else (rsrPair l).1) =
      (rsrPair l).1 := by
    split
    · rename_i htok
      by_cases he : (rsrPair l).1 = []
      · rw [he]
      · exfalso
        apply h ((rsrPair l).1)
        · rw [hwr, ← hr1]
          rw [if_neg (by simp [List.isEmpty_iff, he])]
          exact List.mem_cons_self _ _
        · exact htok
    · rfl
  unfold removeSuffixRuns
  rw [hemit, rsrPair_snd_eq_dropWhile l h2, rsrPair_fst, List.takeWhile_append_dropWhile]

theorem wordRunsAux_collapseWs (l : List Char) :
    wordRunsAux (collapseWs l) = wordRunsAux l := by
  induction l with
  | nil => rfl
  | cons c cs ih =>
    rw [collapseWs]
    split
    · rename_i hwc
      have hcF : isWordChar c = false := pyWs_not_word hwc
      have eRHS : wordRunsAux (c :: cs) =
          ([], if (wordRunsAux cs).1.isEmpty then (wordRunsAux cs).2
            else (wordRunsAux cs).1 :: (wordRunsAux cs).2) := by
        rw [wordRunsAux, if_neg (by simp [hcF])]
      split
      · rename_i hhead
        have hfst : (wordRunsAux (collapseWs cs)).1 = [] := by
          rw [wordRunsAux_fst]
          cases hcw : collapseWs cs with
          | nil => rfl
          | cons d ds =>
            rw [hcw] at hhead
            simp only [List.head?_cons, beq_iff_eq, Option.some_inj] at hhead
            subst hhead
            rw [List.takeWhile_cons, if_neg (by decide)]
        rw [ih] at hfst
        rw [ih, eRHS, hfst]
        simp only [List.isEmpty_nil, if_true]
        exact Prod.ext hfst rfl
      · have eL : wordRunsAux (' ' :: collapseWs cs) =
            ([], if (wordRunsAux (collapseWs cs)).1.isEmpty then (wordRunsAux (collapseWs cs)).2
              else (wordRunsAux (collapseWs cs)).1 :: (wordRunsAux (collapseWs cs)).2) := by
          rw [wordRunsAux, if_neg (by decide)]
        rw [eL, ih, eRHS]
    · rename_i hwc
      by_cases hc : isWordChar c = true
      · have eL : wordRunsAux (c :: collapseWs cs) =
            (c :: (wordRunsAux (collapseWs cs)).1, (wordRunsAux (collapseWs cs)).2) := by
          rw [wordRunsAux, if_pos hc]
        have eR : wordRunsAux (c :: cs) =
            (c :: (wordRunsAux cs).1, (wordRunsAux cs).2) := by
          rw [wordRunsAux, if_pos hc]
        rw [eL, eR, ih]
      · have eL : wordRunsAux (c :: collapseWs cs) =
            ([], if (wordRunsAux (collapseWs cs)).1.isEmpty then (wordRunsAux (collapseWs cs)).2
              else (wordRunsAux (collapseWs cs)).1 :: (wordRunsAux (collapseWs cs)).2) := by
          rw [wordRunsAux, if_neg hc]
        have eR : wordRunsAux (c :: cs) =
            ([], if (wordRunsAux cs).1.isEmpty then (wordRunsAux cs).2
              else (wordRunsAux cs).1 :: (wordRunsAux cs).2) := by
          rw [wordRunsAux, if_neg hc]
        rw [eL, eR, ih]

theorem wordRunsAux_dropTrailingWs (l : List Char) :
    wordRunsAux (dropTrailingWs l) = wordRunsAux l := by
  induction l with
  | nil => rfl
  | cons c cs ih =>
    rw [dropTrailingWs]
    split
    · rename_i hcond
      obtain ⟨hemp, hwc⟩ := Bool.and_eq_true_iff.mp hcond
      have hnil : dropTrailingWs cs = [] := List.isEmpty_iff.mp hemp
      have hauxcs : wordRunsAux cs = ([], []) := by
        rw [← ih, hnil]
        rfl
      have hcF : isWordChar c = false := pyWs_not_word hwc
      have eR : wordRunsAux (c :: cs) =
          ([], if (wordRunsAux cs).1.isEmpty then (wordRunsAux cs).2
            else (wordRunsAux cs).1 :: (wordRunsAux cs).2) := by
        rw [wordRunsAux, if_neg (by simp [hcF])]
      rw [eR, hauxcs]
      rfl
    · by_cases hc : isWordChar c = true
      · have eL : wordRunsAux (c :: dropTrailingWs cs) =
            (c :: (wordRunsAux (dropTrailingWs cs)).1, (wordRunsAux (dropTrailingWs cs)).2) := by
          rw [wordRunsAux, if_pos hc]
        have eR : wordRunsAux (c :: cs) =
            (c :: (wordRunsAux cs).1, (wordRunsAux cs).2) := by
          rw [wordRunsAux, if_pos hc]
        rw [eL, eR, ih]
      · have eL : wordRunsAux (c :: dropTrailingWs cs) =
            ([], if (wordRunsAux (dropTrailingWs cs)).1.isEmpty
              then (wordRunsAux (dropTrailingWs cs)).2
              else (wordRunsAux (dropTrailingWs cs)).1 :: (wordRunsAux (dropTrailingWs cs)).2) := by
          rw [wordRunsAux, if_neg hc]
        have eR : wordRunsAux (c :: cs) =
            ([], if (wordRunsAux cs).1.isEmpty then (wordRunsAux cs).2
              else (wordRunsAux cs).1 :: (wordRunsAux cs).2) := by
          rw [wordRunsAux, if_neg hc]
        rw [eL, eR, ih]

theorem wordRuns_dropWhile_ws (l : List Char) :
    wordRuns (l.dropWhile pyWs) = wordRuns l := by
  induction l with
  | nil => rfl
  | cons c cs ih =>
    rw [List.dropWhile_cons]
    split
    · rename_i hwc
      rw [ih]
      exact (wordRuns_cons_not_word cs (pyWs_not_word hwc)).symm
    · rfl

theorem wordRuns_pyStrip (l : List Char) : wordRuns (pyStrip l) = wordRuns l := by
  unfold pyStrip
  have h1 : wordRuns (dropTrailingWs (l.dropWhile pyWs)) = wordRuns (l.dropWhile pyWs) := by
    rw [wordRuns, wordRunsAux_dropTrailingWs]
    rfl
  rw [h1]
  exact wordRuns_dropWhile_ws l

theorem wordRuns_collapseWs (l : List Char) : wordRuns (collapseWs l) = wordRuns l := by
  rw [wordRuns, wordRunsAux_collapseWs]
  rfl

theorem map_eq_self_of_fix {f : Char → Char} {l : List Char}
    (h : ∀ c ∈ l, f c = c) : l.map f = l := by
  induction l with
  | nil => rfl
  | cons c cs ih =>
    rw [List.map_cons, h c (List.mem_cons_self _ _), ih (fun d hd => h d (List.mem_cons_of_mem c hd))]

theorem companyCore_char_fix (l : List Char) (c : Char)
    (hc : c ∈ pyStrip (collapseWs (removeSuffixRuns (punctToSpace (pyStrip (pyLower l)))))) :
    Char.toLower c = c ∧ isNamePunct c = false := by
  rcases mem_collapseWs (mem_pyStrip hc) with h | rfl
  · have h2 := mem_removeSuffixRuns h
    constructor
    · rcases List.mem_map.mp h2 with ⟨z, hz, rfl⟩
      by_cases hp : isNamePunct z = true
      · show Char.toLower (if isNamePunct z then ' ' else z) = _
        rw [if_pos hp]
        decide
      · show Char.toLower (if isNamePunct z then ' ' else z) = _
        rw [if_neg hp]
        exact mem_pyLower (mem_pyStrip hz)
    · exact mem_punctToSpace h2
  · exact ⟨by decide, by decide⟩

theorem companyPipeline_idem (l : List Char) :
    pyStrip (collapseWs (removeSuffixRuns (punctToSpace (pyStrip (pyLower
      (pyStrip (collapseWs (removeSuffixRuns (punctToSpace (pyStrip (pyLower l))))))))))) =
    pyStrip (collapseWs (removeSuffixRuns (punctToSpace (pyStrip (pyLower l))))) := by
  set m := pyStrip (collapseWs (removeSuffixRuns (punctToSpace (pyStrip (pyLower l))))) with hm
  have hlower : pyLower m = m :=
    map_eq_self_of_fix (fun c hc => (companyCore_char_fix l c (hm ▸ hc)).1)
  have hstrip : pyStrip m = m := by
    rw [hm]
    exact pyStrip_idem _
  have hpunct : punctToSpace m = m :=
    map_eq_self_of_fix (fun c hc => by
      have := (companyCore_char_fix l c (hm ▸ hc)).2
      show (if isNamePunct c then ' ' else c) = c
      rw [this]
      rfl)
  have hruns : ∀ r ∈ wordRuns m, r ∉ companySuffixTokens := by
    intro r hr
    rw [hm, wordRuns_pyStrip, wordRuns_collapseWs, wordRuns_removeSuffixRuns] at hr
    have := List.of_mem_filter hr
    simpa using this
  have hrsr : removeSuffixRuns m = m := removeSuffixRuns_eq_self m hruns
  have hcoll : collapseWs m = m := by
    rw [hm]
    exact collapseWs_eq_self (pyStrip_wsSingle (collapseWs_wsSingle _))
  rw [hlower, hstrip, hpunct, hrsr, hcoll, hstrip]

/-- C8: company-name normalization is idempotent — a second pass is a no-op (the
first pass already leaves lowercase punctuation-free text with single interior
spaces, no outer whitespace and no legal-suffix word runs). -/
theorem claim_C8_normalize_company_idempotent (s : String) :
    normalize_company_name (normalize_company_name s) = normalize_company_name s := by
  unfold normalize_company_name
  by_cases hs : s = ""
  · rw [if_pos hs, if_pos rfl]
  · rw [if_neg hs]
    by_cases hz : (⟨pyStrip (collapseWs (removeSuffixRuns (punctToSpace (pyStrip
        (pyLower s.data)))))⟩ : String) = ""
    · rw [if_pos hz]
      exact hz.symm
    · rw [if_neg hz]
      exact congrArg String.mk (companyPipeline_idem s.data)
